import Mathlib

/-!
Verification of the transport and request-construction layer of the
`generic-core` HTTP pipeline (sdk/core/generic-core).

The Python sources are shallowly embedded: Python strings become `List Char`,
dictionaries of template values become association lists, fallible code
returns explicit result types.  Each definition is translated from the
corresponding Python function, named after it where Lean allows.
-/

namespace GenericCore

/-- Python strings are modelled as lists of characters. -/
abbrev Str := List Char

/-- A mapping of template values (`kwargs` of `str.format`), modelled as an
association list from names to string values. -/
abbrev Vals := List (Str × Str)

/-- Dictionary lookup `kwargs[name]`. -/
def lookupVal (name : Str) : Vals → Option Str
  | [] => none
  | (k, v) :: rest => if k = name then some v else lookupVal name rest

/-- The two exceptions Python's `str.format` can raise on our template
fragment: `KeyError name` for a placeholder name missing from the values, and
`ValueError` for malformed brace structure (a stray brace). -/
inductive FmtErr where
  | keyError (name : Str)
  | valueError
deriving DecidableEq, Repr

mutual

/-- Python's `template.format(**kwargs)` on the fragment of format strings
used by the URL formatter: literal characters and simple `\x7bname\x7d`
placeholders (no `\x7b\x7b` escapes, no conversion or format specifications).
Scans left to right; a placeholder whose name is missing from `kwargs` raises
`KeyError` with that name (the first such, as in CPython); a stray brace
raises `ValueError`. -/
def pyFormat : Str → Vals → Except FmtErr Str
  | [], _ => .ok []
  | c :: rest, vals =>
    if c = '{' then pyFormatHole rest [] vals
    else if c = '}' then .error .valueError
    else (pyFormat rest vals).map (fun s => c :: s)
termination_by structural s _ => s

/-- Field-name scanning mode of `pyFormat`: accumulates the name until the
closing brace, then substitutes the looked-up value. -/
def pyFormatHole : Str → Str → Vals → Except FmtErr Str
  | [], _, _ => .error .valueError
  | c :: rest, acc, vals =>
    if c = '}' then
      match lookupVal acc vals with
      | none => .error (.keyError acc)
      | some v => (pyFormat rest vals).map (fun s => v ++ s)
    else if c = '{' then .error .valueError
    else pyFormatHole rest (acc ++ [c]) vals
termination_by structural s _ _ => s

end

/-- Boolean infix test on character lists (Python's `in` on strings). -/
def isInfixB (pat s : Str) : Bool :=
  match s with
  | [] => pat.isPrefixOf []
  | _ :: rest => pat.isPrefixOf s || isInfixB pat rest

/-- Python `template.split("/")`. -/
def splitSlash : Str → List Str
  | [] => [[]]
  | c :: rest =>
    if c = '/' then [] :: splitSlash rest
    else
      match splitSlash rest with
      | [] => [[c]]
      | s :: ss => (c :: s) :: ss

/-- Python `"/".join(components)`. -/
def joinSlash : List Str → Str
  | [] => []
  | [s] => s
  | s :: ss => s ++ '/' :: joinSlash ss

/-- The placeholder string `"\x7b" + key + "\x7d"` built by
`"\x7b\x7b\x7b\x7d\x7d\x7d".format(key.args[0])` in `_format_url_section`. -/
def placeholderOf (key : Str) : Str := '{' :: key ++ ['}']

/-- Result of `_format_url_section` (and of `format_url`): a returned string,
the `ValueError` raised by the retry loop when segment removal reaches a fixed
point (the spec's `InvalidURL`), the implicit `None` returned when every
component has been removed, an uncaught `ValueError` escaping from `format`
on a malformed template, or an uncaught `KeyError` (possible only in
`format_url`'s base-URL branch, never in `_format_url_section`). -/
inductive UrlFmtResult where
  | ok (s : Str)
  | invalidUrl
  | noneResult
  | valueError
  | keyErrorUncaught (name : Str)
deriving DecidableEq, Repr

/-- The `while components:` retry loop of `_format_url_section`
(pipeline/transport/_base.py).  `fuel` bounds the iteration count; the
top-level entry point supplies more fuel than the loop can consume, since
every iteration either returns or strictly shrinks the component list. -/
def formatUrlLoop : Nat → Str → Str → List Str → Vals → UrlFmtResult
  | 0, _, _, _, _ => .noneResult
  | fuel + 1, lastTemplate, template, components, vals =>
    if components = [] then .noneResult
    else
      match pyFormat template vals with
      | .ok s => .ok s
      | .error .valueError => .valueError
      | .error (.keyError key) =>
        let formattedComponents := splitSlash template
        let components2 :=
          formattedComponents.filter (fun c => ! isInfixB (placeholderOf key) c)
        let template2 := joinSlash components2
        if template2 = lastTemplate then .invalidUrl
        else formatUrlLoop fuel template2 template2 components2 vals

/-- Embedding of `_format_url_section(template, **kwargs)`
(pipeline/transport/_base.py, lines 56-83): string-formats the template,
removing `/`-delimited sections whose placeholder is not in `kwargs`. -/
def formatUrlSection (template : Str) (vals : Vals) : UrlFmtResult :=
  formatUrlLoop ((splitSlash template).length + 1) template template
    (splitSlash template) vals

/-- Syntactic items of a format template: literal characters and
`\x7bname\x7d` placeholders.  Used to state what `pyFormat` computes. -/
inductive TItem where
  | lit (c : Char)
  | hole (name : Str)
deriving DecidableEq, Repr

mutual

/-- Parses a template into its items; `none` on stray braces.  This is a
specification-side companion of `pyFormat`: `pyFormat` succeeds or raises
`KeyError` exactly on templates this parser accepts. -/
def parseTpl : Str → Option (List TItem)
  | [] => some []
  | c :: rest =>
    if c = '{' then parseHole rest []
    else if c = '}' then none
    else (parseTpl rest).map (fun items => .lit c :: items)
termination_by structural s => s

/-- Field-name scanning mode of `parseTpl`. -/
def parseHole : Str → Str → Option (List TItem)
  | [], _ => none
  | c :: rest, acc =>
    if c = '}' then (parseTpl rest).map (fun items => .hole acc :: items)
    else if c = '{' then none
    else parseHole rest (acc ++ [c])
termination_by structural s _ => s

end

/-- Renders a parsed template with the given values; `KeyError` on the first
placeholder whose name is missing. -/
def renderItems : List TItem → Vals → Except FmtErr Str
  | [], _ => .ok []
  | .lit c :: rest, vals => (renderItems rest vals).map (fun s => c :: s)
  | .hole n :: rest, vals =>
    match lookupVal n vals with
    | none => .error (.keyError n)
    | some v => (renderItems rest vals).map (fun s => v ++ s)

/-- Total substitution of values into items (missing names substitute the
empty string; only used where no name is missing). -/
def substItems : List TItem → Vals → Str
  | [], _ => []
  | .lit c :: rest, vals => c :: substItems rest vals
  | .hole n :: rest, vals => (lookupVal n vals).getD [] ++ substItems rest vals

/-- The character string an item list denotes. -/
def flatItems : List TItem → Str
  | [] => []
  | .lit c :: rest => c :: flatItems rest
  | .hole n :: rest => '{' :: (n ++ '}' :: flatItems rest)

/-- Prepends an item to the first group of a segmentation. -/
def consHead (x : TItem) : List (List TItem) → List (List TItem)
  | [] => [[x]]
  | g :: gs => (x :: g) :: gs

/-- Splits an item list at literal `/` characters, mirroring `splitSlash` on
the denoted string. -/
def splitItems : List TItem → List (List TItem)
  | [] => [[]]
  | .lit c :: rest =>
    if c = '/' then [] :: splitItems rest else consHead (.lit c) (splitItems rest)
  | .hole n :: rest => consHead (.hole n) (splitItems rest)

/-- Joins item groups with literal `/` separators, mirroring `joinSlash`. -/
def joinItems : List (List TItem) → List TItem
  | [] => []
  | [g] => g
  | g :: gs => g ++ .lit '/' :: joinItems gs

/-- Placeholder names occurring in an item list. -/
def holeNames : List TItem → List Str
  | [] => []
  | .lit _ :: rest => holeNames rest
  | .hole n :: rest => n :: holeNames rest

/-- An item group contains a placeholder whose name is missing from the
values. -/
def hasMissingB (vals : Vals) (g : List TItem) : Bool :=
  (holeNames g).any (fun n => (lookupVal n vals).isNone)

/-- Well-formedness of an item list: literal braces never occur (the parser
cannot produce them), names contain no braces, no slashes (so a placeholder
lies within one `/`-segment) and are nonempty (Python's `\x7b\x7d`
auto-numbering is outside the modelled fragment). -/
def ItemsWF (items : List TItem) : Prop :=
  (∀ c, TItem.lit c ∈ items → c ≠ '{' ∧ c ≠ '}') ∧
  (∀ n, TItem.hole n ∈ items →
    n ≠ [] ∧ '{' ∉ n ∧ '}' ∉ n ∧ '/' ∉ n)

/-- Result of `urllib.parse.urlparse` restricted to the components the
transport layer reads: scheme, network location, path and query (URLs with
fragments or params are outside the modelled fragment). -/
structure ParsedUrl where
  scheme : Str
  netloc : Str
  path : Str
  query : Str
deriving DecidableEq, Repr

/-- Characters permitted in a URL scheme after the leading letter. -/
def isSchemeChar (c : Char) : Bool :=
  c.isAlphanum || c = '+' || c = '-' || c = '.'

/-- Embedding of `urllib.parse.urlparse` on the modelled fragment: an
optional `scheme:`, an optional `//netloc`, then the path up to an optional
`?query`. -/
def urlparse (s : Str) : ParsedUrl :=
  let pre := s.takeWhile (fun c => c ≠ ':')
  let hasScheme :=
    pre.length < s.length ∧ pre ≠ [] ∧
    (pre.headD ' ').isAlpha ∧ pre.all isSchemeChar
  let (scheme, rest) :=
    if hasScheme then (pre.map Char.toLower, s.drop (pre.length + 1)) else ([], s)
  let (netloc, rest2) :=
    if rest.take 2 = ['/', '/'] then
      ((rest.drop 2).takeWhile (fun c => c ≠ '/' ∧ c ≠ '?'),
       (rest.drop 2).dropWhile (fun c => c ≠ '/' ∧ c ≠ '?'))
    else ([], rest)
  let path := rest2.takeWhile (fun c => c ≠ '?')
  let query := (rest2.dropWhile (fun c => c ≠ '?')).drop 1
  ⟨scheme, netloc, path, query⟩

/-- Embedding of `geturl` / `urlunparse` on the modelled fragment. -/
def geturl (u : ParsedUrl) : Str :=
  (if u.scheme = [] then [] else u.scheme ++ [':']) ++
  (if u.netloc = [] then [] else '/' :: '/' :: u.netloc) ++
  u.path ++
  (if u.query = [] then [] else '?' :: u.query)

/-- Python `s.rstrip("/")`. -/
def rstripSlash (s : Str) : Str :=
  (s.reverse.dropWhile (fun c => c = '/')).reverse

/-- Python `stub_url.split("?", 1)`: the part before the first `?` and,
when a `?` is present, the part after it. -/
def splitFirstQm (s : Str) : Str × Option Str :=
  let p := s.takeWhile (fun c => c ≠ '?')
  if p.length < s.length then (p, some (s.drop (p.length + 1))) else (p, none)

/-- Core of `_urljoin` (pipeline/transport/_base.py, lines 85-111) after the
base URL has been parsed: appends the stub path with exactly one `/` after
stripping the base path's trailing slashes, and appends (never replaces) the
stub's query string. -/
def urljoinParsed (base : ParsedUrl) (stubUrl : Str) : ParsedUrl :=
  let (stubPath, stubQuery) := splitFirstQm stubUrl
  let base2 := { base with path := rstripSlash base.path ++ '/' :: stubPath }
  match stubQuery with
  | none => base2
  | some q =>
    if q = [] then base2
    else
      { base2 with
        query := if base.query = [] then q else base.query ++ '&' :: q }

/-- Embedding of `_urljoin(base_url, stub_url)`. -/
def urljoin (baseUrl stubUrl : Str) : Str :=
  geturl (urljoinParsed (urlparse baseUrl) stubUrl)

/-- Python `url.lstrip("/")`. -/
def lstripSlash (s : Str) : Str := s.dropWhile (fun c => c = '/')

/-- Embedding of `PipelineClientBase.format_url(url_template, **kwargs)`
(pipeline/transport/_base.py, lines 233-257): formats the template, then —
unless the result is absolute (has both scheme and netloc) or falsy — joins
it onto the formatted base URL. -/
def formatUrl (baseUrl : Str) (urlTemplate : Str) (vals : Vals) : UrlFmtResult :=
  match formatUrlSection urlTemplate vals with
  | .ok url =>
    if url ≠ [] then
      let parsed := urlparse url
      if parsed.scheme = [] ∨ parsed.netloc = [] then
        match pyFormat baseUrl vals with
        | .ok b => .ok (urljoin (rstripSlash b) (lstripSlash url))
        | .error (.keyError _) => .invalidUrl
        | .error .valueError => .valueError
      else .ok url
    else
      match pyFormat baseUrl vals with
      | .ok b => .ok b
      | .error (.keyError k) => .keyErrorUncaught k
      | .error .valueError => .valueError
  | .noneResult =>
    match pyFormat baseUrl vals with
    | .ok b => .ok b
    | .error (.keyError k) => .keyErrorUncaught k
    | .error .valueError => .valueError
  | r => r

/-- A request as seen by the multipart serializer: either it carries no
multipart descriptor (`set_multipart_mixed` never called), or it carries the
ordered list of sub-requests of its `multipart_mixed_info`. -/
inductive MPReq where
  | simple
  | multi (subs : List MPReq)

/-- A part attached to a `multipart/mixed` message: a non-multipart
sub-request serialized as `application/http` with a numeric `Content-ID`, or
a nested multipart sub-message whose boundary-delimited body carries its own
parts.  The parts' byte payloads are abstracted; the headers relevant to the
claim (`Content-ID`) are kept. -/
inductive MPart where
  | leaf (contentId : Nat)
  | nested (inner : List MPart)

mutual

/-- Embedding of `_prepare_multipart_body_helper(http_request, content_index)`
(utils/_pipeline_transport_rest_shared.py, lines 101-156): returns the
updated part index together with the parts attached to the message (empty,
with result index 0, when the request has no multipart descriptor). -/
def prepareMultipartBodyHelper : MPReq → Nat → Nat × List MPart
  | .simple, _ => (0, [])
  | .multi subs, contentIndex => prepareParts subs contentIndex
termination_by structural r => r

/-- The `for req in requests:` loop of `_prepare_multipart_body_helper`:
nested multipart sub-requests recurse, reusing and advancing the shared
index; plain sub-requests get `Content-ID = content_index` which is then
incremented. -/
def prepareParts : List MPReq → Nat → Nat × List MPart
  | [], i => (i, [])
  | .simple :: rest, i =>
    let (i2, ps) := prepareParts rest (i + 1)
    (i2, .leaf i :: ps)
  | .multi subs :: rest, i =>
    let (i2, inner) := prepareMultipartBodyHelper (.multi subs) i
    let (i3, ps) := prepareParts rest i2
    (i3, .nested inner :: ps)
termination_by structural rs => rs

end

/-- Content-ID values of the non-multipart parts of a (possibly nested) part
list, in attachment order. -/
def leafIds : List MPart → List Nat
  | [] => []
  | .leaf i :: rest => i :: leafIds rest
  | .nested inner :: rest => leafIds inner ++ leafIds rest

mutual

/-- Number of non-multipart sub-requests in a whole nested batch. -/
def leafCount : MPReq → Nat
  | .simple => 1
  | .multi subs => leafCountList subs
termination_by structural r => r

/-- Number of non-multipart sub-requests across a list of sub-requests. -/
def leafCountList : List MPReq → Nat
  | [] => 0
  | r :: rest => leafCount r + leafCountList rest
termination_by structural rs => rs

end

/-- A sub-request and the part attached for it agree in kind: plain
sub-requests become `application/http` parts carrying a `Content-ID`, nested
multipart sub-requests become nested sub-message parts. -/
def partMatches : MPReq → MPart → Prop
  | .simple, .leaf _ => True
  | .multi _, .nested _ => True
  | _, _ => False

/-- The `content` argument of `PipelineClientBase._request`: an XML tree
(`xml.etree.ElementTree.Element`) or any other (text / JSON-serializable)
value. -/
inductive ContentV where
  | xmlElement
  | value (s : Str)
deriving DecidableEq, Repr

/-- What `_request` stores in its `req_content` local: the XML tree, the
text content, or the stream source. -/
inductive SelContent where
  | xmlC
  | textC (s : Str)
  | streamC
deriving DecidableEq, Repr

/-- The four body-selection locals of `PipelineClientBase._request`
(`req_content`, `req_json`, `req_data`, `req_files`). -/
structure BodySelection where
  reqContent : Option SelContent
  reqJson : Option Str
  reqData : List (Str × Str)
  reqFiles : List (Str × Str)
deriving DecidableEq, Repr

/-- Python `content_type and content_type.startswith("text/")`. -/
def ctStartsText : Option Str → Bool
  | none => false
  | some t => t ≠ [] && ("text/".toList).isPrefixOf t

/-- Python
`content_type and content_type.lower() == "application/x-www-form-urlencoded"`. -/
def ctIsUrlencoded : Option Str → Bool
  | none => false
  | some t =>
    t ≠ [] && t.map Char.toLower = "application/x-www-form-urlencoded".toList

/-- The body-kind selection logic of `PipelineClientBase._request`
(pipeline/transport/_base.py, lines 196-218), exactly as coded: the content
branch chooses XML, text or JSON; independently, non-empty form content
chooses URL-encoded or multipart file fields, and otherwise a supplied
stream is stored into `req_content`. -/
def selectBody (content : Option ContentV) (formContent : List (Str × Str))
    (streamContent : Bool) (contentType : Option Str) : BodySelection :=
  let s0 : BodySelection := ⟨none, none, [], []⟩
  let s1 :=
    match content with
    | none => s0
    | some .xmlElement => { s0 with reqContent := some .xmlC }
    | some (.value v) =>
      if ctStartsText contentType then { s0 with reqContent := some (.textC v) }
      else { s0 with reqJson := some v }
  if formContent ≠ [] then
    if ctIsUrlencoded contentType then { s1 with reqData := formContent }
    else { s1 with reqFiles := formContent }
  else if streamContent then { s1 with reqContent := some .streamC }
  else s1

/-- The `HttpRequest` value returned by `_request`, with the body fields it
can carry.  `HttpRequest` itself lives in the `rest` package (absent from the
sources); constructing it without content/json/data/files keyword arguments
leaves every body field unset. -/
structure HttpRequestModel where
  method : Str
  url : Str
  content : Option SelContent
  json : Option Str
  data : List (Str × Str)
  files : List (Str × Str)
deriving DecidableEq, Repr

/-- Embedding of the tail of `PipelineClientBase._request`
(pipeline/transport/_base.py, lines 196-231): the body selection is
computed, then the returned `HttpRequest` is rebuilt from method, url,
params and headers only — the content/json/data/files keyword arguments are
commented out in the source, so the selection is discarded and the returned
request carries no body. -/
def pipelineRequest (method : Str) (url : Str) (content : Option ContentV)
    (formContent : List (Str × Str)) (streamContent : Bool)
    (contentType : Option Str) : HttpRequestModel :=
  let sel := selectBody content formContent streamContent contentType
  let _unused := sel
  { method := method, url := url,
    content := none, json := none, data := [], files := [] }

/-- State of an `AioHttpTransport` instance: the session-owner flag and the
held `aiohttp.ClientSession`, if any (the session object itself is opaque to
the lifecycle logic). -/
structure TransportState where
  sessionOwner : Bool
  session : Option Unit
deriving DecidableEq, Repr

/-- Embedding of `AioHttpTransport.open` (pipeline/transport/_aiohttp.py,
lines 107-121): allocates a session only when none is held AND this
transport owns its session; afterwards `self.session.__aenter__()` is
awaited, which on a `None` session raises `AttributeError` (modelled as
`none`). -/
def openTransport (st : TransportState) : Option TransportState :=
  let st2 :=
    if st.session = none ∧ st.sessionOwner then { st with session := some () }
    else st
  match st2.session with
  | none => none
  | some _ => some st2

/-- Embedding of `AioHttpTransport.close` (pipeline/transport/_aiohttp.py,
lines 123-128): only when the transport owns a held session, the session is
closed and released, and the owner flag is cleared. -/
def closeTransport (st : TransportState) : TransportState :=
  if st.sessionOwner ∧ st.session ≠ none then
    { sessionOwner := false, session := none }
  else st

/-- The aiohttp / asyncio exceptions that can escape the `try` block of
`AioHttpTransport.send`, `AioHttpStreamDownloadGenerator.__anext__` and the
response handling, by their position in the backend's class hierarchy. -/
inductive AioExn where
  | clientResponseError
  | timeoutError
  | serverTimeoutError
  | clientPayloadError
  | clientConnectorError
  | otherClientError
deriving DecidableEq, Repr

/-- Membership in `aiohttp.client_exceptions.ClientResponseError`. -/
def isClientResponseErrorB : AioExn → Bool
  | .clientResponseError => true
  | _ => false

/-- Membership in `asyncio.TimeoutError` (`ServerTimeoutError` subclasses
both `asyncio.TimeoutError` and `ClientConnectionError`). -/
def isTimeoutErrorB : AioExn → Bool
  | .timeoutError => true
  | .serverTimeoutError => true
  | _ => false

/-- Membership in `aiohttp.client_exceptions.ClientError`, the root of the
aiohttp client exception hierarchy (every aiohttp client exception except a
plain `asyncio.TimeoutError`). -/
def isClientErrorB : AioExn → Bool
  | .timeoutError => false
  | _ => true

/-- The three pipeline error kinds of the Error Classifier. -/
inductive CoreErrorKind where
  | serviceRequest
  | serviceResponse
  | incompleteRead
deriving DecidableEq, Repr

/-- Outcome of `AioHttpTransport.send`: a response, a translated pipeline
error, or a leaked backend exception (no code path produces `leaked`; the
constructor exists so that non-leakage is a statement, not a tautology). -/
inductive SendResult where
  | success
  | failure (k : CoreErrorKind)
  | leaked (e : AioExn)
deriving DecidableEq, Repr

/-- The `except` chain of `AioHttpTransport.send`
(pipeline/transport/_aiohttp.py, lines 238-243), in source order:
`ClientResponseError` → `ServiceResponseError`, `asyncio.TimeoutError` →
`ServiceResponseError`, `ClientError` → `ServiceRequestError`; anything else
would propagate as-is. -/
def translateSendExn (e : AioExn) : SendResult :=
  if isClientResponseErrorB e then .failure .serviceResponse
  else if isTimeoutErrorB e then .failure .serviceResponse
  else if isClientErrorB e then .failure .serviceRequest
  else .leaked e

/-- What the backend does during one `send` exchange: completes, or raises a
backend exception. -/
inductive SendEvent where
  | completed
  | raised (e : AioExn)
deriving DecidableEq, Repr

/-- Embedding of `AioHttpTransport.send` (pipeline/transport/_aiohttp.py,
lines 171-244): first awaits `self.open()` (whose failure propagates), then
performs the exchange, translating backend exceptions through the `except`
chain. -/
def aioSend (st : TransportState) (ev : SendEvent) :
    Option (TransportState × SendResult) :=
  match openTransport st with
  | none => none
  | some st2 =>
    some (st2, match ev with
      | .completed => .success
      | .raised e => translateSendExn e)

/-- One byte of a response body. -/
abbrev Byte := Nat

/-- Modelled from the spec: `zlib.decompressobj(wbits=zlib_mode)`, which the
repository uses but does not contain, is a streaming decompressor — a
byte-driven state machine consuming input byte by byte and emitting output
bytes, whose state persists across `decompress` calls. -/
structure Decompressor (σ : Type) where
  init : σ
  step : σ → Byte → σ × List Byte

/-- One `decompressor.decompress(chunk)` call: folds the byte-step over the
chunk from the current state, concatenating the emitted output. -/
def runDecompress (M : Decompressor σ) (s : σ) : List Byte → σ × List Byte
  | [] => (s, [])
  | b :: rest =>
    let (s2, out) := M.step s b
    let (s3, outRest) := runDecompress M s2 rest
    (s3, out ++ outRest)

/-- What the backend's `content.read(block_size)` (or the surrounding
machinery) does during one pull of `AioHttpStreamDownloadGenerator.__anext__`:
returns a chunk (empty at end of stream), or raises. -/
inductive StreamEvent where
  | readOk (chunk : List Byte)
  | payloadError
  | responseError
  | timeoutError
  | clientError
  | otherError
deriving DecidableEq, Repr

/-- Outcome of one pull of the stream download generator. -/
inductive PullOutcome where
  | yieldChunk (data : List Byte)
  | stopIteration
  | incompleteRead
  | serviceResponse
  | serviceRequest
  | reraised
deriving DecidableEq, Repr

/-- Mutable state of an `AioHttpStreamDownloadGenerator` bound to one
response: the decompression flag, the response's `Content-Encoding` header,
the lazily created decompressor state, and whether `self.response.close()`
has been called. -/
structure StreamState (σ : Type) where
  decompress : Bool
  contentEncoding : Option Str
  decompressor : Option σ
  respClosed : Bool

/-- Embedding of `AioHttpStreamDownloadGenerator.__anext__`
(pipeline/transport/_aiohttp.py, lines 278-319).  An empty read means end of
stream: the response is closed and the sequence stops.  A non-empty chunk is
returned raw unless decompression applies, in which case the decompressor —
created lazily on first use with gzip or deflate mode — is advanced.  On
`ClientPayloadError` the response is closed and the pull fails with
`IncompleteReadError`; on `ClientResponseError` or `asyncio.TimeoutError` it
fails with `ServiceResponseError`, on other `ClientError` with
`ServiceRequestError` — in these three branches `self.response.close()` is
not called; any other exception closes the response and is re-raised. -/
def anextStep (gzipM deflateM : Decompressor σ) (st : StreamState σ) :
    StreamEvent → PullOutcome × StreamState σ
  | .readOk chunk =>
    if chunk = [] then (.stopIteration, { st with respClosed := true })
    else if ¬ st.decompress then (.yieldChunk chunk, st)
    else
      match st.contentEncoding with
      | none => (.yieldChunk chunk, st)
      | some enc0 =>
        let enc := enc0.map Char.toLower
        if enc = "gzip".toList ∨ enc = "deflate".toList then
          let M := if enc = "gzip".toList then gzipM else deflateM
          let s0 := match st.decompressor with
            | none => M.init
            | some s => s
          let (s1, out) := runDecompress M s0 chunk
          (.yieldChunk out, { st with decompressor := some s1 })
        else (.yieldChunk chunk, st)
  | .payloadError => (.incompleteRead, { st with respClosed := true })
  | .responseError => (.serviceResponse, st)
  | .timeoutError => (.serviceResponse, st)
  | .clientError => (.serviceRequest, st)
  | .otherError => (.reraised, { st with respClosed := true })

/-- Data yielded by pulling the generator once per chunk of the backend's
byte stream, threading the generator state. -/
def pullOutputs (gzipM deflateM : Decompressor σ) (st : StreamState σ) :
    List (List Byte) → List (List Byte)
  | [] => []
  | c :: cs =>
    match anextStep gzipM deflateM st (.readOk c) with
    | (.yieldChunk out, st2) => out :: pullOutputs gzipM deflateM st2 cs
    | _ => []

/-- Initial state of a stream download generator for a response with the
given `Content-Encoding` header and decompression flag. -/
def initStreamState (decompress : Bool) (enc : Option Str) :
    StreamState σ :=
  ⟨decompress, enc, none, false⟩

/-- A concrete decompressor used to evaluate the stream reader on explicit
inputs: the identity codec (each byte decompresses to itself). -/
def idDecompressor : Decompressor Unit :=
  ⟨(), fun _ b => ((), [b])⟩

/-- A concrete stateful decompressor used to evaluate the stream reader on
explicit inputs: emits the running sum of the bytes seen so far, so its
output at each byte depends on state threaded across chunk boundaries. -/
def sumDecompressor : Decompressor Nat :=
  ⟨0, fun s b => (s + b, [s + b])⟩

/-- Python string comparison `a < b` (lexicographic by code point). -/
def lexLtB : Str → Str → Bool
  | [], [] => false
  | [], _ :: _ => true
  | _ :: _, [] => false
  | a :: as_, b :: bs =>
    if a < b then true
    else if b < a then false
    else lexLtB as_ bs

/-- Descending insertion preserving Python's `sorted(keys, reverse=True)`
order on the proxy mapping's keys. -/
def insortDesc (x : Str × Str) : List (Str × Str) → List (Str × Str)
  | [] => [x]
  | y :: ys => if lexLtB x.1 y.1 then y :: insortDesc x ys else x :: y :: ys

/-- Embedding of `sorted(proxies.keys(), reverse=True)` carried out on the
key-value pairs. -/
def sortDesc : List (Str × Str) → List (Str × Str)
  | [] => []
  | x :: xs => insortDesc x (sortDesc xs)

/-- The `for protocol in sorted(...)` loop body of `AioHttpTransport.send`:
the first protocol the request URL starts with selects its proxy URL. -/
def firstProxyMatch (url : Str) : List (Str × Str) → Option Str
  | [] => none
  | (k, v) :: rest =>
    if k.isPrefixOf url then some v else firstProxyMatch url rest

/-- Embedding of the proxy-selection loop of `AioHttpTransport.send`
(pipeline/transport/_aiohttp.py, lines 194-201), reached when a `proxies`
mapping is supplied without a single `proxy` override: iterates the keys in
reverse-sorted order and picks the proxy of the first key that prefixes the
request URL. -/
def pickProxy (url : Str) (proxies : List (Str × Str)) : Option Str :=
  firstProxyMatch url (sortDesc proxies)

/-! ## Claim C2 — URL formatting scenarios A and B -/

/-- C2 is refuted: for the template `/items/\x7bid\x7d` and the empty value
mapping, `_format_url_section` does not fail with an `InvalidURL` error — it
silently drops the `\x7bid\x7d` segment and returns `/items`. -/
theorem claim_C2_counterexample :
    formatUrlSection ("/items/\x7bid\x7d".toList) [] = .ok ("/items".toList) ∧
    formatUrlSection ("/items/\x7bid\x7d".toList) [] ≠ .invalidUrl := by
  exact ⟨by decide, by decide⟩

/-- C2 (amended): for the template `/items/\x7bid\x7d` with values
`id = 42`, formatting returns `/items/42`; with the empty value mapping it
does not fail but removes the `/`-delimited segment holding the placeholder
and returns `/items`. -/
theorem claim_C2_theorem :
    formatUrlSection ("/items/\x7bid\x7d".toList)
        [("id".toList, "42".toList)] = .ok ("/items/42".toList) ∧
    formatUrlSection ("/items/\x7bid\x7d".toList) [] = .ok ("/items".toList) := by
  exact ⟨by decide, by decide⟩

/-! ## Claim C5 — request body-kind selection -/

/-- C5 (evaluation at the failing input): with text content `hello` under a
`text/plain` Content-Type and neither form nor stream content, the selection
logic of `_request` picks the text representation into `req_content`, yet
the `HttpRequest` the method returns carries no body at all — the selection
locals are dropped because the body keyword arguments of the final
`HttpRequest(...)` call are commented out in the source. -/
theorem claim_C5_theorem :
    selectBody (some (.value ("hello".toList))) [] false
        (some ("text/plain".toList))
      = ⟨some (.textC ("hello".toList)), none, [], []⟩ ∧
    pipelineRequest ("GET".toList) ("/".toList)
        (some (.value ("hello".toList))) [] false (some ("text/plain".toList))
      = ⟨"GET".toList, "/".toList, none, none, [], []⟩ := by
  exact ⟨by decide, by decide⟩

/-! ## Claim C10 — transport session lifecycle -/

/-- C10 is refuted as stated: a transport constructed with
`session_owner=True` but no session yet (legal: the constructor only rejects
`session_owner=False` without a session) is left untouched by `close()` —
the owner flag is not cleared, because `close` requires a held session. -/
theorem claim_C10_counterexample :
    closeTransport ⟨true, none⟩ = ⟨true, none⟩ ∧
    (closeTransport ⟨true, none⟩).sessionOwner ≠ false := by
  exact ⟨by decide, by decide⟩

/-- C10 (amended): for an owning transport that holds a session, `close()`
clears the owner flag and releases the session; in the resulting state
`open()` does not allocate a session (allocation happens only with no
session held AND ownership, i.e. from state `(owner, no session)`) and
instead fails on `None.__aenter__`, so a closed owning transport can never
be reopened; a repeated `close()` is a no-op.  The six equations cover the
entire state space of the lifecycle. -/
theorem claim_C10_theorem :
    closeTransport ⟨true, some ()⟩ = ⟨false, none⟩ ∧
    closeTransport ⟨false, none⟩ = ⟨false, none⟩ ∧
    closeTransport ⟨false, some ()⟩ = ⟨false, some ()⟩ ∧
    openTransport ⟨false, none⟩ = none ∧
    openTransport ⟨true, none⟩ = some ⟨true, some ()⟩ ∧
    openTransport ⟨false, some ()⟩ = some ⟨false, some ()⟩ ∧
    openTransport ⟨true, some ()⟩ = some ⟨true, some ()⟩ := by
  refine ⟨by decide, by decide, by decide, by decide, by decide, by decide,
    by decide⟩

/-! ## Claim C1 — closing the response in the stream reader -/

/-- C1 is refuted: a `ClientResponseError` during a pull terminates the pull
with `ServiceResponseError`, but the underlying response is NOT closed — the
`except` branches for `ClientResponseError`, `asyncio.TimeoutError` and
`ClientError` re-raise without calling `self.response.close()`. -/
theorem claim_C1_counterexample :
    anextStep idDecompressor idDecompressor
        (initStreamState true (some ("gzip".toList))) .responseError
      = (.serviceResponse, initStreamState true (some ("gzip".toList))) ∧
    (initStreamState (σ := Unit) true (some ("gzip".toList))).respClosed
      = false := by
  exact ⟨rfl, rfl⟩

/-- C1 (amended): every pull of `AioHttpStreamDownloadGenerator.__anext__`
closes the underlying response before terminating on end-of-stream
(exhaustion), on payload truncation (`IncompleteReadError`) and on any
unexpected failure (re-raised); but the backend transport failures mapped to
`ServiceResponseError` (`ClientResponseError`, `asyncio.TimeoutError`) and
`ServiceRequestError` (other `ClientError`) are raised without closing the
response. -/
theorem claim_C1_theorem (σ : Type) (gzipM deflateM : Decompressor σ)
    (st : StreamState σ) :
    anextStep gzipM deflateM st (.readOk [])
      = (.stopIteration, { st with respClosed := true }) ∧
    anextStep gzipM deflateM st .payloadError
      = (.incompleteRead, { st with respClosed := true }) ∧
    anextStep gzipM deflateM st .otherError
      = (.reraised, { st with respClosed := true }) ∧
    anextStep gzipM deflateM st .responseError = (.serviceResponse, st) ∧
    anextStep gzipM deflateM st .timeoutError = (.serviceResponse, st) ∧
    anextStep gzipM deflateM st .clientError = (.serviceRequest, st) := by
  refine ⟨rfl, rfl, rfl, rfl, rfl, rfl⟩

/-! ## Claim C4 — multipart Content-ID numbering -/

/-- Auxiliary for C4: for every sub-request list and starting index, the
serializer returns the starting index plus the number of non-multipart
parts, assigns them the consecutive Content-ID values, and attaches one part
per sub-request in input order. -/
theorem prepareParts_spec :
    ∀ n, ∀ subs : List MPReq, sizeOf subs ≤ n → ∀ i,
      (prepareParts subs i).1 = i + leafCountList subs ∧
      leafIds (prepareParts subs i).2 = List.range' i (leafCountList subs) ∧
      List.Forall₂ partMatches subs (prepareParts subs i).2 := by
  intro n
  induction n with
  | zero =>
    intro subs h i
    exact absurd h (by cases subs <;> simp)
  | succ n ih =>
    intro subs h i
    match subs with
    | [] =>
      simp [prepareParts, leafCountList, leafIds, List.range']
    | .simple :: rest =>
      have hr : sizeOf rest ≤ n := by
        simp at h; omega
      obtain ⟨h1, h2, h3⟩ := ih rest hr (i + 1)
      refine ⟨?_, ?_, ?_⟩
      · simp [prepareParts, leafCountList, leafCount, h1]; omega
      · have hcount : leafCountList (.simple :: rest) = leafCountList rest + 1 := by
          simp [leafCountList, leafCount]; omega
        simp only [prepareParts, leafIds, h2, hcount, List.range']
      · simp only [prepareParts]
        exact List.Forall₂.cons trivial h3
    | .multi s :: rest =>
      have hs : sizeOf s ≤ n := by
        simp at h; omega
      have hr : sizeOf rest ≤ n := by
        simp at h; omega
      obtain ⟨g1, g2, g3⟩ := ih s hs i
      obtain ⟨h1, h2, h3⟩ := ih rest hr (i + leafCountList s)
      have hhelper : prepareMultipartBodyHelper (.multi s) i = prepareParts s i := by
        simp [prepareMultipartBodyHelper]
      refine ⟨?_, ?_, ?_⟩
      · simp [prepareParts, hhelper, g1, h1, leafCountList, leafCount]; omega
      · have : leafIds (prepareParts (MPReq.multi s :: rest) i).2
            = List.range' i (leafCountList s)
              ++ List.range' (i + leafCountList s) (leafCountList rest) := by
          simp only [prepareParts, hhelper, g1, leafIds, g2, h2]
        rw [this]
        have happ := List.range'_append i (leafCountList s) (leafCountList rest) 1
        simp only [one_mul] at happ
        rw [happ]
        simp [leafCountList, leafCount]
        omega
      · simp only [prepareParts, hhelper, g1]
        exact List.Forall₂.cons trivial h3

/-- C4: for every multipart request (arbitrarily nested) and every starting
`content_index`, serialization attaches one part per sub-request in input
order (plain sub-requests become Content-ID parts, nested multipart
sub-requests become nested sub-messages), the Content-ID values of the
non-multipart parts across the whole nested batch are exactly
`content_index, content_index+1, ...` — strictly increasing, gap-free and
unique — and the returned index is the starting index plus the number of
non-multipart parts; a request with no multipart descriptor returns 0 with
no parts; two plain sub-requests batched from index 0 get Content-ID 0 and
1 in input order. -/
theorem claim_C4_theorem :
    (∀ (subs : List MPReq) (i : Nat),
      (prepareParts subs i).1 = i + leafCountList subs ∧
      leafIds (prepareParts subs i).2 = List.range' i (leafCountList subs) ∧
      List.Forall₂ partMatches subs (prepareParts subs i).2) ∧
    (∀ (subs : List MPReq) (i : Nat),
      prepareMultipartBodyHelper (.multi subs) i = prepareParts subs i) ∧
    (∀ i : Nat, prepareMultipartBodyHelper .simple i = (0, [])) ∧
    prepareParts [.simple, .simple] 0 = (2, [.leaf 0, .leaf 1]) := by
  refine ⟨fun subs i => prepareParts_spec (sizeOf subs) subs le_rfl i,
    fun subs i => by simp [prepareMultipartBodyHelper],
    fun i => by simp [prepareMultipartBodyHelper],
    by simp [prepareParts]⟩

/-! ## Claim C7 — send opens implicitly and translates backend errors -/

/-- C7: `AioHttpTransport.send` first performs the implicit `open()` (its
result is the state the exchange runs in, and an `open` failure propagates
before any exchange); every backend exception raised during the exchange is
translated into one of the three pipeline error kinds — here always
`ServiceRequestError` or `ServiceResponseError`, never a leaked backend
exception — and every timeout (`asyncio.TimeoutError`, including aiohttp's
`ServerTimeoutError`) surfaces as `ServiceResponseError`. -/
theorem claim_C7_theorem :
    (∀ (st : TransportState) (ev : SendEvent) (st2 : TransportState)
        (r : SendResult),
      aioSend st ev = some (st2, r) → openTransport st = some st2) ∧
    (∀ st ev, openTransport st = none → aioSend st ev = none) ∧
    (∀ e : AioExn,
      translateSendExn e = .failure .serviceRequest ∨
      translateSendExn e = .failure .serviceResponse) ∧
    (∀ e : AioExn, isTimeoutErrorB e = true →
      translateSendExn e = .failure .serviceResponse) := by
  refine ⟨?_, ?_, ?_, ?_⟩
  · intro st ev st2 r h
    unfold aioSend at h
    cases hop : openTransport st with
    | none => rw [hop] at h; exact absurd h (by simp)
    | some st3 =>
      rw [hop] at h
      simp only [Option.some.injEq, Prod.mk.injEq] at h
      rw [h.1]
  · intro st ev h
    unfold aioSend
    rw [h]
  · intro e
    cases e <;> simp [translateSendExn, isClientResponseErrorB,
      isTimeoutErrorB, isClientErrorB]
  · intro e h
    cases e <;> simp_all [translateSendExn, isClientResponseErrorB,
      isTimeoutErrorB, isClientErrorB]

/-- C7 witness: the theorem applied at a concrete open transport with a
completed exchange, and at the concrete `ServerTimeoutError` backend
exception. -/
theorem claim_C7_witness :
    openTransport ⟨true, some ()⟩ = some ⟨true, some ()⟩ ∧
    translateSendExn .serverTimeoutError = .failure .serviceResponse := by
  constructor
  · exact claim_C7_theorem.1 ⟨true, some ()⟩ .completed ⟨true, some ()⟩
      .success (by decide)
  · exact claim_C7_theorem.2.2.2 .serverTimeoutError (by decide)

/-! ## Claim C9 — chunked decompression equals whole-buffer decompression -/

/-- Feeding a decompressor two byte runs in sequence (state threaded) equals
feeding their concatenation. -/
theorem runDecompress_append (M : Decompressor σ) (s : σ) (a b : List Byte) :
    runDecompress M s (a ++ b)
      = ((runDecompress M (runDecompress M s a).1 b).1,
         (runDecompress M s a).2 ++ (runDecompress M (runDecompress M s a).1 b).2) := by
  induction a generalizing s with
  | nil => simp [runDecompress]
  | cons x xs ih =>
    simp only [List.cons_append, runDecompress]
    simp only [List.append_eq]
    rw [ih]
    simp [List.append_assoc]

/-- One pull on a non-empty chunk with decompression enabled and a gzip or
deflate content encoding advances the lazily initialized decompressor. -/
theorem anextStep_chunk (gzipM deflateM : Decompressor σ) (enc : Str)
    (henc : enc.map Char.toLower = "gzip".toList ∨
      enc.map Char.toLower = "deflate".toList)
    (d : Option σ) (cl : Bool) (c : List Byte) (hc : c ≠ []) :
    anextStep gzipM deflateM ⟨true, some enc, d, cl⟩ (.readOk c)
      = (.yieldChunk
          (runDecompress
            (if enc.map Char.toLower = "gzip".toList then gzipM else deflateM)
            (d.getD
              (if enc.map Char.toLower = "gzip".toList then gzipM
               else deflateM).init) c).2,
         ⟨true, some enc,
          some (runDecompress
            (if enc.map Char.toLower = "gzip".toList then gzipM else deflateM)
            (d.getD
              (if enc.map Char.toLower = "gzip".toList then gzipM
               else deflateM).init) c).1, cl⟩) := by
  simp only [anextStep, if_neg hc]
  rw [if_neg (by simp)]
  rw [if_pos henc]
  cases d with
  | none => simp
  | some s => simp

/-- Auxiliary for C9: pulling the generator chunk by chunk, from any point of
the lazily initialized decompressor state, concatenates to a single
decompressor run over the concatenated bytes. -/
theorem pullOutputs_decompress (σ : Type) (gzipM deflateM : Decompressor σ)
    (enc : Str)
    (henc : enc.map Char.toLower = "gzip".toList ∨
      enc.map Char.toLower = "deflate".toList) :
    ∀ chunks : List (List Byte), (∀ c ∈ chunks, c ≠ []) →
      ∀ (d : Option σ) (cl : Bool),
      (pullOutputs gzipM deflateM ⟨true, some enc, d, cl⟩ chunks).flatten
        = (runDecompress
            (if enc.map Char.toLower = "gzip".toList then gzipM else deflateM)
            (d.getD
              (if enc.map Char.toLower = "gzip".toList then gzipM
               else deflateM).init)
            chunks.flatten).2 := by
  intro chunks
  induction chunks with
  | nil => intro _ d cl; simp [pullOutputs, runDecompress]
  | cons c cs ih =>
    intro hne d cl
    have hc : c ≠ [] := hne c (by simp)
    have hcs : ∀ x ∈ cs, x ≠ [] := fun x hx => hne x (by simp [hx])
    simp only [pullOutputs, anextStep_chunk gzipM deflateM enc henc d cl c hc]
    rw [List.flatten_cons, ih hcs, List.flatten_cons, runDecompress_append]
    simp

/-- C9: for every streaming decompressor (the spec-modelled `zlib`
decompressor for gzip or deflate), every `Content-Encoding` header that
lowercases to `gzip` or `deflate`, and every partition of the encoded byte
stream into non-empty chunks, pulling the reader chunk by chunk — one
decompressor initialized lazily on the first chunk and reused across chunks
— concatenates to exactly the output of decompressing the entire buffer at
once, independent of where the chunk boundaries fall. -/
theorem claim_C9_theorem (σ : Type) (gzipM deflateM : Decompressor σ)
    (enc : Str) (chunks : List (List Byte))
    (henc : enc.map Char.toLower = "gzip".toList ∨
      enc.map Char.toLower = "deflate".toList)
    (hne : ∀ c ∈ chunks, c ≠ []) :
    (pullOutputs gzipM deflateM (initStreamState true (some enc))
        chunks).flatten
      = (runDecompress
          (if enc.map Char.toLower = "gzip".toList then gzipM else deflateM)
          (if enc.map Char.toLower = "gzip".toList then gzipM
            else deflateM).init
          chunks.flatten).2 :=
  pullOutputs_decompress σ gzipM deflateM enc henc chunks hne none false

/-- C9 witness: the theorem applied to the concrete stateful decompressor
and the partition `[[1], [2, 3]]` of the buffer `[1, 2, 3]`: both sides
evaluate to the running-sum outputs `[1, 3, 6]`. -/
theorem claim_C9_witness :
    (pullOutputs sumDecompressor sumDecompressor
        (initStreamState true (some ("gzip".toList))) [[1], [2, 3]]).flatten
      = (runDecompress sumDecompressor sumDecompressor.init [1, 2, 3]).2 ∧
    (runDecompress sumDecompressor sumDecompressor.init [1, 2, 3]).2
      = [1, 3, 6] := by
  constructor
  · exact claim_C9_theorem Nat sumDecompressor sumDecompressor
      ("gzip".toList) [[1], [2, 3]] (by decide) (by decide)
  · rfl

/-! ## Claim C6 — URL joining -/

/-- Python `split("/")` never returns an empty list. -/
theorem splitSlash_ne_nil (s : Str) : splitSlash s ≠ [] := by
  match s with
  | [] => simp [splitSlash]
  | c :: rest =>
    rw [splitSlash]
    by_cases hc : c = '/'
    · simp [hc]
    · rw [if_neg hc]
      cases hsp : splitSlash rest <;> simp

/-- Formatting a brace-free template returns it unchanged, whatever the
values. -/
theorem pyFormat_braceFree (s : Str) (vals : Vals)
    (h1 : '{' ∉ s) (h2 : '}' ∉ s) : pyFormat s vals = .ok s := by
  induction s with
  | nil => rfl
  | cons c rest ih =>
    have hc1 : c ≠ '{' := fun h => h1 (by simp [h])
    have hc2 : c ≠ '}' := fun h => h2 (by simp [h])
    have hr1 : '{' ∉ rest := fun h => h1 (by simp [h])
    have hr2 : '}' ∉ rest := fun h => h2 (by simp [h])
    rw [pyFormat, if_neg hc1, if_neg hc2, ih hr1 hr2]
    rfl

/-- A brace-free template passes through `_format_url_section` unchanged. -/
theorem formatUrlSection_braceFree (s : Str) (vals : Vals)
    (h1 : '{' ∉ s) (h2 : '}' ∉ s) : formatUrlSection s vals = .ok s := by
  rw [formatUrlSection, formatUrlLoop, if_neg (splitSlash_ne_nil s),
    pyFormat_braceFree s vals h1 h2]

/-- C6: `_urljoin` produces a URL whose path is the base path with trailing
slashes stripped, one `/`, then the stub path, and — when both base and stub
carry a query — whose query is the base query, `&`, then the stub query
(appended, never replaced); scenario C holds end to end; and in
`format_url` an absolute stub (with both scheme and netloc) bypasses
joining and is returned unchanged. -/
theorem claim_C6_theorem :
    (∀ (p : ParsedUrl) (stub : Str),
      (urljoinParsed p stub).path
        = rstripSlash p.path ++ '/' :: (splitFirstQm stub).1) ∧
    (∀ (p : ParsedUrl) (stub : Str) (sp q : Str),
      splitFirstQm stub = (sp, some q) → q ≠ [] → p.query ≠ [] →
      (urljoinParsed p stub).query = p.query ++ '&' :: q) ∧
    urljoin ("https://host/api?x=1".toList) ("sub?y=2".toList)
      = "https://host/api/sub?x=1&y=2".toList ∧
    (∀ (base stub : Str) (vals : Vals),
      '{' ∉ stub → '}' ∉ stub →
      (urlparse stub).scheme ≠ [] → (urlparse stub).netloc ≠ [] →
      formatUrl base stub vals = .ok stub) := by
  refine ⟨?_, ?_, by decide, ?_⟩
  · intro p stub
    rw [urljoinParsed]
    rcases hsp : splitFirstQm stub with ⟨sp, sq⟩
    cases sq with
    | none => simp
    | some q =>
      by_cases hq : q = []
      · simp [hq]
      · simp [hq]
  · intro p stub sp q hsp hq hbq
    rw [urljoinParsed, hsp]
    simp only [if_neg hq, if_neg hbq]
  · intro base stub vals h1 h2 hs hn
    have hstub : stub ≠ [] := by
      intro h
      subst h
      exact hs (by decide)
    rw [formatUrl, formatUrlSection_braceFree stub vals h1 h2]
    simp only []
    rw [if_pos hstub]
    rw [if_neg (by push_neg; exact ⟨hs, hn⟩)]

/-- C6 witness: the query-merging clause applied to the parsed base
`https://host/api?x=1` and stub `sub?y=2`, and the bypass clause applied to
the absolute stub `https://acme.org/a`. -/
theorem claim_C6_witness :
    (urljoinParsed ⟨"https".toList, "host".toList, "/api".toList, "x=1".toList⟩
        ("sub?y=2".toList)).query = "x=1&y=2".toList ∧
    formatUrl ("https://h".toList) ("https://acme.org/a".toList) []
      = .ok ("https://acme.org/a".toList) := by
  constructor
  · have h := claim_C6_theorem.2.1
      ⟨"https".toList, "host".toList, "/api".toList, "x=1".toList⟩
      ("sub?y=2".toList) ("sub".toList) ("y=2".toList)
      (by decide) (by decide) (by decide)
    exact h
  · exact claim_C6_theorem.2.2.2 ("https://h".toList)
      ("https://acme.org/a".toList) [] (by decide) (by decide) (by decide)
      (by decide)

/-! ## Claim C8 — longest-matching proxy key -/

/-- Python string `<` is irreflexive. -/
theorem lexLtB_irrefl : ∀ a : Str, lexLtB a a = false := by
  intro a
  induction a with
  | nil => rfl
  | cons x xs ih => rw [lexLtB, if_neg (lt_irrefl x), if_neg (lt_irrefl x), ih]

/-- Python string `<` is asymmetric. -/
theorem lexLtB_asymm : ∀ a b : Str, lexLtB a b = true → lexLtB b a = false := by
  intro a
  induction a with
  | nil =>
    intro b h
    cases b with
    | nil => rfl
    | cons y ys => rfl
  | cons x xs ih =>
    intro b h
    cases b with
    | nil => exact absurd h (by rw [lexLtB]; simp)
    | cons y ys =>
      rw [lexLtB] at h ⊢
      by_cases hxy : x < y
      · rw [if_neg (lt_asymm hxy), if_pos hxy]
      · rw [if_neg hxy] at h
        by_cases hyx : y < x
        · rw [if_pos hyx] at h; exact absurd h (by simp)
        · rw [if_neg hyx] at h
          rw [if_neg hyx, if_neg hxy]
          exact ih ys h

/-- Two strings neither of which is `<` the other are equal. -/
theorem lexLtB_eq_of_not : ∀ a b : Str,
    lexLtB a b = false → lexLtB b a = false → a = b := by
  intro a
  induction a with
  | nil =>
    intro b h1 _
    cases b with
    | nil => rfl
    | cons y ys => exact absurd h1 (by rw [lexLtB]; simp)
  | cons x xs ih =>
    intro b h1 h2
    cases b with
    | nil => exact absurd h2 (by rw [lexLtB]; simp)
    | cons y ys =>
      rw [lexLtB] at h1 h2
      by_cases hxy : x < y
      · rw [if_pos hxy] at h1; exact absurd h1 (by simp)
      · by_cases hyx : y < x
        · rw [if_pos hyx] at h2; exact absurd h2 (by simp)
        · rw [if_neg hxy, if_neg hyx] at h1
          rw [if_neg hyx, if_neg hxy] at h2
          have hx : x = y := le_antisymm (not_lt.mp hyx) (not_lt.mp hxy)
          rw [hx, ih ys h1 h2]

/-- Transitivity of `not <` (i.e. `≥`) on Python strings. -/
theorem lexLtB_ge_trans : ∀ a b c : Str,
    lexLtB a b = false → lexLtB b c = false → lexLtB a c = false := by
  intro a
  induction a with
  | nil =>
    intro b c h1 h2
    cases b with
    | nil => exact h2
    | cons y ys => exact absurd h1 (by rw [lexLtB]; simp)
  | cons x xs ih =>
    intro b c h1 h2
    cases b with
    | nil =>
      cases c with
      | nil => rfl
      | cons z zs => exact absurd h2 (by rw [lexLtB]; simp)
    | cons y ys =>
      cases c with
      | nil => rfl
      | cons z zs =>
        rw [lexLtB] at h1 h2 ⊢
        by_cases hxy : x < y
        · rw [if_pos hxy] at h1; exact absurd h1 (by simp)
        · rw [if_neg hxy] at h1
          by_cases hyz : y < z
          · rw [if_pos hyz] at h2; exact absurd h2 (by simp)
          · rw [if_neg hyz] at h2
            have hyx : y ≤ x := not_lt.mp hxy
            have hzy : z ≤ y := not_lt.mp hyz
            have hxz : ¬ x < z := not_lt.mpr (le_trans hzy hyx)
            rw [if_neg hxz]
            by_cases hzx : z < x
            · rw [if_pos hzx]
            · rw [if_neg hzx]
              have hxz2 : x = z := le_antisymm (not_lt.mp hzx)
                (le_trans hzy hyx)
              have hyx2 : y = x := le_antisymm hyx (hxz2 ▸ hzy)
              rw [if_neg (show ¬ y < x by rw [hyx2]; exact lt_irrefl x)] at h1
              rw [if_neg (show ¬ z < y by rw [hyx2, ← hxz2]; exact lt_irrefl x)]
                at h2
              exact ih ys zs h1 h2

/-- A proper prefix is lexicographically smaller (Python's string order). -/
theorem lexLtB_of_proper_prefix : ∀ a b : Str,
    a <+: b → a ≠ b → lexLtB a b = true := by
  intro a
  induction a with
  | nil =>
    intro b _ hne
    cases b with
    | nil => exact absurd rfl hne
    | cons y ys => rfl
  | cons x xs ih =>
    intro b hpre hne
    obtain ⟨t, ht⟩ := hpre
    cases b with
    | nil => exact absurd ht (by simp)
    | cons y ys =>
      rw [List.cons_append] at ht
      obtain ⟨hxy, hys⟩ := List.cons.inj ht
      rw [lexLtB, hxy, if_neg (lt_irrefl y), if_neg (lt_irrefl y)]
      refine ih ys ⟨t, hys⟩ ?_
      intro hEq
      exact hne (by rw [hxy, hEq])

/-- Inserting into the descending list permutes with `cons`. -/
theorem insortDesc_perm (x : Str × Str) :
    ∀ l : List (Str × Str), List.Perm (insortDesc x l) (x :: l) := by
  intro l
  induction l with
  | nil => exact List.Perm.refl _
  | cons y ys ih =>
    rw [insortDesc]
    by_cases h : lexLtB x.1 y.1 = true
    · rw [if_pos h]
      exact ((ih.cons y).trans (List.Perm.swap x y ys))
    · rw [if_neg h]

/-- The descending sort is a permutation of the input. -/
theorem sortDesc_perm : ∀ l : List (Str × Str), List.Perm (sortDesc l) l := by
  intro l
  induction l with
  | nil => exact List.Perm.refl _
  | cons y ys ih =>
    rw [sortDesc]
    exact (insortDesc_perm y (sortDesc ys)).trans (ih.cons y)

/-- Entries are pairwise in weakly descending key order after insertion. -/
theorem insortDesc_pairwise (x : Str × Str) :
    ∀ l : List (Str × Str),
      List.Pairwise (fun a b => lexLtB a.1 b.1 = false) l →
      List.Pairwise (fun a b => lexLtB a.1 b.1 = false) (insortDesc x l) := by
  intro l
  induction l with
  | nil => intro _; exact List.pairwise_singleton _ x
  | cons y ys ih =>
    intro hl
    rw [List.pairwise_cons] at hl
    obtain ⟨hy, hys⟩ := hl
    rw [insortDesc]
    by_cases h : lexLtB x.1 y.1 = true
    · rw [if_pos h]
      rw [List.pairwise_cons]
      refine ⟨?_, ih hys⟩
      intro z hz
      have hz2 : z ∈ x :: ys := (insortDesc_perm x ys).mem_iff.mp hz
      rcases List.mem_cons.mp hz2 with hzx | hzys
      · rw [hzx]
        exact lexLtB_asymm x.1 y.1 h
      · exact hy z hzys
    · rw [if_neg h]
      rw [Bool.not_eq_true] at h
      rw [List.pairwise_cons]
      refine ⟨?_, List.pairwise_cons.mpr ⟨hy, hys⟩⟩
      intro z hz
      rcases List.mem_cons.mp hz with hzy | hzys
      · rw [hzy]; exact h
      · exact lexLtB_ge_trans x.1 y.1 z.1 h (hy z hzys)

/-- `sortDesc` output is pairwise weakly descending on keys. -/
theorem sortDesc_pairwise : ∀ l : List (Str × Str),
    List.Pairwise (fun a b => lexLtB a.1 b.1 = false) (sortDesc l) := by
  intro l
  induction l with
  | nil => exact List.Pairwise.nil
  | cons y ys ih => exact insortDesc_pairwise y (sortDesc ys) ih

/-- On a descending key-sorted list with distinct keys, the first key that
prefixes the URL is the longest matching key, so its value is selected. -/
theorem firstProxyMatch_longest (url k v : Str) :
    ∀ L : List (Str × Str),
      List.Pairwise (fun a b => lexLtB a.1 b.1 = false) L →
      (k, v) ∈ L → k.isPrefixOf url = true →
      (∀ k2 v2, (k2, v2) ∈ L → k2.isPrefixOf url = true →
        k2.length ≤ k.length) →
      (L.map Prod.fst).Nodup →
      firstProxyMatch url L = some v := by
  intro L
  induction L with
  | nil => intro _ hmem; exact absurd hmem (by simp)
  | cons e rest ih =>
    intro hpair hmem hpre hmax hnodup
    rw [List.pairwise_cons] at hpair
    obtain ⟨hhead, hrest⟩ := hpair
    rw [List.map_cons, List.nodup_cons] at hnodup
    obtain ⟨hnotin, hnodup2⟩ := hnodup
    rcases e with ⟨k0, v0⟩
    rw [firstProxyMatch]
    by_cases hp0 : k0.isPrefixOf url = true
    · rw [if_pos hp0]
      have hk0 : k0 = k := by
        by_contra hne
        have hk0pre : k0 <+: url := List.isPrefixOf_iff_prefix.mp hp0
        have hkpre : k <+: url := List.isPrefixOf_iff_prefix.mp hpre
        have hlen : k0.length ≤ k.length :=
          hmax k0 v0 (List.mem_cons_self _ _) hp0
        have hchain := List.prefix_or_prefix_of_prefix hk0pre hkpre
        have hk0k : k0 <+: k := by
          rcases hchain with h | h
          · exact h
          · have : k.length ≤ k0.length := h.length_le
            exact absurd (h.eq_of_length (le_antisymm this hlen))
              (fun hEq => hne hEq.symm)
        have hlt : lexLtB k0 k = true :=
          lexLtB_of_proper_prefix k0 k hk0k hne
        have hmem2 : (k, v) ∈ rest := by
          rcases List.mem_cons.mp hmem with hEq | h
          · exact absurd (congrArg Prod.fst hEq).symm hne
          · exact h
        have := hhead (k, v) hmem2
        rw [hlt] at this
        exact absurd this (by simp)
      subst hk0
      have hv : v0 = v := by
        rcases List.mem_cons.mp hmem with hEq | h
        · exact (Prod.mk.injEq _ _ _ _ ▸ hEq.symm).2
        · exact absurd (List.mem_map.mpr ⟨(k0, v), h, rfl⟩) hnotin
      rw [hv]
    · rw [if_neg hp0]
      have hmem2 : (k, v) ∈ rest := by
        rcases List.mem_cons.mp hmem with hEq | h
        · have : k0 = k := (Prod.mk.injEq _ _ _ _ ▸ hEq.symm).1
          rw [this] at hp0
          exact absurd hpre hp0
        · exact h
      exact ih hrest hmem2 hpre
        (fun k2 v2 h2 hp2 => hmax k2 v2 (List.mem_cons_of_mem _ h2) hp2)
        hnodup2

/-- C8: when a `proxies` mapping is supplied to `send` without a single
`proxy` override, the proxy selected is the one bound to the longest key
that prefixes the request URL: Python's reverse lexicographic iteration
visits, among the matching keys (which form a prefix chain of the URL), the
longest one first. -/
theorem claim_C8_theorem (proxies : List (Str × Str)) (url k v : Str)
    (hmem : (k, v) ∈ proxies)
    (hpre : k.isPrefixOf url = true)
    (hmax : ∀ k2 v2, (k2, v2) ∈ proxies → k2.isPrefixOf url = true →
      k2.length ≤ k.length)
    (hnodup : (proxies.map Prod.fst).Nodup) :
    pickProxy url proxies = some v := by
  rw [pickProxy]
  refine firstProxyMatch_longest url k v (sortDesc proxies)
    (sortDesc_pairwise proxies)
    ((sortDesc_perm proxies).mem_iff.mpr hmem) hpre
    (fun k2 v2 h2 hp2 =>
      hmax k2 v2 ((sortDesc_perm proxies).mem_iff.mp h2) hp2)
    ?_
  exact (((sortDesc_perm proxies).map Prod.fst).nodup_iff).mpr hnodup

/-- C8 witness: among the keys `http` and `https` of a proxies mapping, a
request URL starting with both selects the proxy of the longer key
`https`. -/
theorem claim_C8_witness :
    pickProxy ("https://h".toList)
      [("http".toList, "p1".toList), ("https".toList, "p2".toList)]
      = some ("p2".toList) := by
  refine claim_C8_theorem _ _ ("https".toList) ("p2".toList)
    (by decide) (by decide) ?_ (by decide)
  intro k2 v2 h2 hp2
  rcases List.mem_cons.mp h2 with h | h
  · have hk : k2 = "http".toList := congrArg Prod.fst h
    rw [hk]
    decide
  · rcases List.mem_cons.mp h with h3 | h3
    · have hk : k2 = "https".toList := congrArg Prod.fst h3
      rw [hk]
    · exact absurd h3 (by simp)

/-! ## Claim C3 — the full contract of `_format_url_section` -/

/-- Item denotation is an append homomorphism. -/
theorem flatItems_append : ∀ a b : List TItem,
    flatItems (a ++ b) = flatItems a ++ flatItems b := by
  intro a b
  induction a with
  | nil => rfl
  | cons x rest ih =>
    cases x with
    | lit c => rw [List.cons_append, flatItems, ih]; rfl
    | hole n => rw [List.cons_append, flatItems, ih, flatItems]; simp

/-- The boolean infix test agrees with `List.IsInfix`. -/
theorem isInfixB_iff (pat : Str) : ∀ s : Str,
    isInfixB pat s = true ↔ pat <:+: s := by
  intro s
  induction s with
  | nil =>
    rw [isInfixB]
    rw [List.isPrefixOf_iff_prefix]
    constructor
    · intro h; exact h.isInfix
    · intro h
      rw [List.infix_nil.mp h]
  | cons c rest ih =>
    rw [isInfixB, Bool.or_eq_true, List.isPrefixOf_iff_prefix, ih,
      List.infix_cons_iff]

/-- Splitting a slash-free string yields the single segment. -/
theorem splitSlash_noslash : ∀ s : Str, '/' ∉ s → splitSlash s = [s] := by
  intro s
  induction s with
  | nil => intro _; rfl
  | cons c rest ih =>
    intro h
    have hc : c ≠ '/' := fun hEq => h (by simp [hEq])
    have hr : '/' ∉ rest := fun hm => h (by simp [hm])
    rw [splitSlash, if_neg hc, ih hr]

/-- Prepending a slash-free run only extends the first segment. -/
theorem splitSlash_append_noslash : ∀ xs : Str, '/' ∉ xs → ∀ t : Str,
    ∃ h tl, splitSlash t = h :: tl ∧ splitSlash (xs ++ t) = (xs ++ h) :: tl := by
  intro xs
  induction xs with
  | nil =>
    intro _ t
    cases hsp : splitSlash t with
    | nil => exact absurd hsp (splitSlash_ne_nil t)
    | cons h tl => exact ⟨h, tl, rfl, by simp [hsp]⟩
  | cons c rest ih =>
    intro hno t
    have hc : c ≠ '/' := fun hEq => hno (by simp [hEq])
    have hr : '/' ∉ rest := fun hm => hno (by simp [hm])
    obtain ⟨h, tl, h1, h2⟩ := ih hr t
    refine ⟨h, tl, h1, ?_⟩
    rw [List.cons_append, splitSlash, if_neg hc, h2]
    rfl

/-- `joinSlash` over at least two segments. -/
theorem joinSlash_cons (s : Str) (rest : List Str) (h : rest ≠ []) :
    joinSlash (s :: rest) = s ++ '/' :: joinSlash rest := by
  cases rest with
  | nil => exact absurd rfl h
  | cons r rs => rfl

/-- `joinSlash` of one segment. -/
theorem joinSlash_singleton (s : Str) : joinSlash [s] = s := rfl

/-- Rejoining the split recovers the original string. -/
theorem joinSlash_splitSlash : ∀ s : Str, joinSlash (splitSlash s) = s := by
  intro s
  induction s with
  | nil => rfl
  | cons c rest ih =>
    rw [splitSlash]
    cases hsp : splitSlash rest with
    | nil => exact absurd hsp (splitSlash_ne_nil rest)
    | cons h tl =>
      rw [hsp] at ih
      by_cases hc : c = '/'
      · rw [if_pos hc, joinSlash_cons [] (h :: tl) (by simp), ih, hc]
        rfl
      · rw [if_neg hc]
        show joinSlash ((c :: h) :: tl) = c :: rest
        cases tl with
        | nil =>
          rw [joinSlash_singleton] at ih
          rw [joinSlash_singleton, ih]
        | cons t2 ts =>
          rw [joinSlash_cons h (t2 :: ts) (by simp)] at ih
          rw [joinSlash_cons (c :: h) (t2 :: ts) (by simp), List.cons_append,
            ih]

/-- `consHead` never empties a segmentation. -/
theorem consHead_ne_nil (x : TItem) (gs : List (List TItem)) :
    consHead x gs ≠ [] := by
  cases gs <;> simp [consHead]

/-- Item segmentations are never empty. -/
theorem splitItems_ne_nil : ∀ items : List TItem, splitItems items ≠ [] := by
  intro items
  induction items with
  | nil => simp [splitItems]
  | cons x rest ih =>
    cases x with
    | lit c =>
      rw [splitItems]
      by_cases hc : c = '/'
      · simp [hc]
      · rw [if_neg hc]; exact consHead_ne_nil _ _
    | hole n => rw [splitItems]; exact consHead_ne_nil _ _

/-- `joinItems` of one group. -/
theorem joinItems_singleton (g : List TItem) : joinItems [g] = g := rfl

/-- `joinItems` over at least two groups. -/
theorem joinItems_cons (g : List TItem) (gs : List (List TItem))
    (h : gs ≠ []) : joinItems (g :: gs) = g ++ .lit '/' :: joinItems gs := by
  cases gs with
  | nil => exact absurd rfl h
  | cons g2 gs2 => rfl

/-- `joinItems` after `consHead` prepends the item. -/
theorem joinItems_consHead (x : TItem) (gs : List (List TItem))
    (h : gs ≠ []) : joinItems (consHead x gs) = x :: joinItems gs := by
  cases gs with
  | nil => exact absurd rfl h
  | cons g gs2 =>
    rw [consHead]
    cases gs2 with
    | nil => rfl
    | cons g3 gs3 =>
      rw [joinItems_cons g (g3 :: gs3) (by simp),
        joinItems_cons (x :: g) (g3 :: gs3) (by simp), List.cons_append]

/-- Rejoining an item segmentation recovers the items. -/
theorem joinItems_splitItems : ∀ items : List TItem,
    joinItems (splitItems items) = items := by
  intro items
  induction items with
  | nil => rfl
  | cons x rest ih =>
    cases x with
    | lit c =>
      rw [splitItems]
      by_cases hc : c = '/'
      · rw [if_pos hc,
          joinItems_cons [] (splitItems rest) (splitItems_ne_nil rest),
          ih, hc]
        rfl
      · rw [if_neg hc,
          joinItems_consHead (.lit c) (splitItems rest) (splitItems_ne_nil rest),
          ih]
    | hole n =>
      rw [splitItems,
        joinItems_consHead (.hole n) (splitItems rest) (splitItems_ne_nil rest),
        ih]

/-- Members of a segmentation group are members of the item list. -/
theorem mem_splitItems : ∀ (items : List TItem) (g : List TItem) (x : TItem),
    g ∈ splitItems items → x ∈ g → x ∈ items := by
  intro items
  induction items with
  | nil =>
    intro g x hg hx
    rw [splitItems] at hg
    rcases List.mem_singleton.mp hg with rfl
    exact absurd hx (by simp)
  | cons y rest ih =>
    intro g x hg hx
    have hstep : ∀ z : TItem, (¬ (∃ c, y = .lit c ∧ c = '/')) → False ∨ True :=
      fun _ _ => Or.inr trivial
    rcases y with c | n
    · rw [splitItems] at hg
      by_cases hc : c = '/'
      · rw [if_pos hc] at hg
        rcases List.mem_cons.mp hg with rfl | hg2
        · exact absurd hx (by simp)
        · exact List.mem_cons_of_mem _ (ih g x hg2 hx)
      · rw [if_neg hc] at hg
        cases hsp : splitItems rest with
        | nil => exact absurd hsp (splitItems_ne_nil rest)
        | cons g0 gs =>
          rw [hsp, consHead] at hg
          rcases List.mem_cons.mp hg with rfl | hg2
          · rcases List.mem_cons.mp hx with rfl | hx2
            · exact List.mem_cons_self _ _
            · exact List.mem_cons_of_mem _
                (ih g0 x (by rw [hsp]; exact List.mem_cons_self _ _) hx2)
          · exact List.mem_cons_of_mem _
              (ih g x (by rw [hsp]; exact List.mem_cons_of_mem _ hg2) hx)
    · rw [splitItems] at hg
      cases hsp : splitItems rest with
      | nil => exact absurd hsp (splitItems_ne_nil rest)
      | cons g0 gs =>
        rw [hsp, consHead] at hg
        rcases List.mem_cons.mp hg with rfl | hg2
        · rcases List.mem_cons.mp hx with rfl | hx2
          · exact List.mem_cons_self _ _
          · exact List.mem_cons_of_mem _
              (ih g0 x (by rw [hsp]; exact List.mem_cons_self _ _) hx2)
        · exact List.mem_cons_of_mem _
            (ih g x (by rw [hsp]; exact List.mem_cons_of_mem _ hg2) hx)

/-- Groups produced by `splitItems` never contain a literal slash. -/
theorem splitItems_no_slash : ∀ (items : List TItem) (g : List TItem),
    g ∈ splitItems items → TItem.lit '/' ∉ g := by
  intro items
  induction items with
  | nil =>
    intro g hg
    rw [splitItems] at hg
    rcases List.mem_singleton.mp hg with rfl
    simp
  | cons y rest ih =>
    intro g hg
    rcases y with c | n
    · rw [splitItems] at hg
      by_cases hc : c = '/'
      · rw [if_pos hc] at hg
        rcases List.mem_cons.mp hg with rfl | hg2
        · simp
        · exact ih g hg2
      · rw [if_neg hc] at hg
        cases hsp : splitItems rest with
        | nil => exact absurd hsp (splitItems_ne_nil rest)
        | cons g0 gs =>
          rw [hsp, consHead] at hg
          rcases List.mem_cons.mp hg with rfl | hg2
          · intro hmem
            rcases List.mem_cons.mp hmem with hEq | hx2
            · exact hc (TItem.lit.inj hEq.symm).symm.symm
            · exact ih g0 (by rw [hsp]; exact List.mem_cons_self _ _) hx2
          · exact ih g (by rw [hsp]; exact List.mem_cons_of_mem _ hg2)
    · rw [splitItems] at hg
      cases hsp : splitItems rest with
      | nil => exact absurd hsp (splitItems_ne_nil rest)
      | cons g0 gs =>
        rw [hsp, consHead] at hg
        rcases List.mem_cons.mp hg with rfl | hg2
        · intro hmem
          rcases List.mem_cons.mp hmem with hEq | hx2
          · exact absurd hEq (by simp)
          · exact ih g0 (by rw [hsp]; exact List.mem_cons_self _ _) hx2
        · exact ih g (by rw [hsp]; exact List.mem_cons_of_mem _ hg2)

/-- Members of joined groups come from some group, or are the slash
separator. -/
theorem mem_joinItems : ∀ (gs : List (List TItem)) (x : TItem),
    x ∈ joinItems gs → (∃ g ∈ gs, x ∈ g) ∨ x = .lit '/' := by
  intro gs
  induction gs with
  | nil => intro x hx; exact absurd hx (by simp [joinItems])
  | cons g gs2 ih =>
    intro x hx
    cases gs2 with
    | nil =>
      rw [joinItems_singleton] at hx
      exact Or.inl ⟨g, List.mem_cons_self _ _, hx⟩
    | cons g2 gs3 =>
      rw [joinItems_cons g (g2 :: gs3) (by simp)] at hx
      rcases List.mem_append.mp hx with h | h
      · exact Or.inl ⟨g, List.mem_cons_self _ _, h⟩
      · rcases List.mem_cons.mp h with rfl | h2
        · exact Or.inr rfl
        · rcases ih x h2 with ⟨g3, hg3, hxg3⟩ | hEq
          · exact Or.inl ⟨g3, List.mem_cons_of_mem _ hg3, hxg3⟩
          · exact Or.inr hEq

/-- Joining segment strings equals the string of the joined segments. -/
theorem joinSlash_map_flat : ∀ gs : List (List TItem),
    joinSlash (gs.map flatItems) = flatItems (joinItems gs) := by
  intro gs
  induction gs with
  | nil => rfl
  | cons g gs2 ih =>
    cases gs2 with
    | nil => rfl
    | cons g2 gs3 =>
      rw [List.map_cons, joinSlash_cons _ _ (by simp),
        joinItems_cons g (g2 :: gs3) (by simp), flatItems_append, ih]
      rfl

/-- A group whose literals and names avoid `/` denotes a slash-free string. -/
theorem flat_noslash : ∀ g : List TItem,
    (∀ c, TItem.lit c ∈ g → c ≠ '/') →
    (∀ n, TItem.hole n ∈ g → '/' ∉ n) →
    '/' ∉ flatItems g := by
  intro g
  induction g with
  | nil => intro _ _; simp [flatItems]
  | cons x rest ih =>
    intro hlit hname
    have ihr := ih (fun c hc => hlit c (List.mem_cons_of_mem _ hc))
      (fun n hn => hname n (List.mem_cons_of_mem _ hn))
    cases x with
    | lit c =>
      rw [flatItems]
      intro hmem
      rcases List.mem_cons.mp hmem with hEq | h2
      · exact hlit c (List.mem_cons_self _ _) hEq.symm
      · exact ihr h2
    | hole n =>
      rw [flatItems]
      intro hmem
      rcases List.mem_cons.mp hmem with hEq | h2
      · exact absurd hEq (by decide)
      · rcases List.mem_append.mp h2 with h3 | h3
        · exact hname n (List.mem_cons_self _ _) h3
        · rcases List.mem_cons.mp h3 with hEq2 | h4
          · exact absurd hEq2 (by decide)
          · exact ihr h4

/-- Splitting the string of joined slash-free groups recovers the group
strings. -/
theorem splitSlash_flat_join : ∀ gs : List (List TItem), gs ≠ [] →
    (∀ g ∈ gs, '/' ∉ flatItems g) →
    splitSlash (flatItems (joinItems gs)) = gs.map flatItems := by
  intro gs
  induction gs with
  | nil => intro h; exact absurd rfl h
  | cons g gs2 ih =>
    intro _ hno
    cases gs2 with
    | nil =>
      rw [joinItems_singleton, List.map_singleton]
      exact splitSlash_noslash _ (hno g (List.mem_cons_self _ _))
    | cons g2 gs3 =>
      rw [joinItems_cons g (g2 :: gs3) (by simp), flatItems_append]
      obtain ⟨h, tl, h1, h2⟩ := splitSlash_append_noslash (flatItems g)
        (hno g (List.mem_cons_self _ _))
        (flatItems (.lit '/' :: joinItems (g2 :: gs3)))
      rw [flatItems] at h1 h2 ⊢
      rw [splitSlash] at h1
      rw [if_pos rfl] at h1
      have ih2 := ih (by simp) (fun g3 hg3 => hno g3 (List.mem_cons_of_mem _ hg3))
      rw [ih2] at h1
      obtain ⟨hh, htl⟩ := List.cons.inj h1
      rw [h2, ← hh, ← htl, List.append_nil, List.map_cons]
      rfl

/-- Soundness of the template parser: a parse denotes the original string,
literal braces never occur among the items, and names are brace-free; in
name-scanning mode the input decomposes as the name, the closing brace, and
a parseable remainder. -/
theorem parse_sound : ∀ N : Nat, ∀ t : Str, t.length ≤ N →
    (∀ items, parseTpl t = some items →
      flatItems items = t ∧
      (∀ c, TItem.lit c ∈ items → c ≠ '{' ∧ c ≠ '}') ∧
      (∀ n, TItem.hole n ∈ items → '{' ∉ n ∧ '}' ∉ n)) ∧
    (∀ acc items, parseHole t acc = some items →
      ∃ front ritems rest2,
        items = TItem.hole (acc ++ front) :: ritems ∧
        t = front ++ '}' :: rest2 ∧
        '{' ∉ front ∧ '}' ∉ front ∧
        parseTpl rest2 = some ritems) := by
  intro N
  induction N with
  | zero =>
    intro t ht
    have ht0 : t = [] := List.length_eq_zero.mp (Nat.le_zero.mp ht)
    subst ht0
    constructor
    · intro items hp
      rw [parseTpl] at hp
      obtain rfl := Option.some.inj hp
      exact ⟨rfl, by simp, by simp⟩
    · intro acc items hp
      rw [parseHole] at hp
      exact absurd hp (by simp)
  | succ N ih =>
    intro t ht
    constructor
    · intro items hp
      cases t with
      | nil =>
        rw [parseTpl] at hp
        obtain rfl := Option.some.inj hp
        exact ⟨rfl, by simp, by simp⟩
      | cons c rest =>
        have hrl : rest.length ≤ N := by
          simp at ht; omega
        rw [parseTpl] at hp
        by_cases hc : c = '{'
        · rw [if_pos hc] at hp
          obtain ⟨front, ritems, rest2, hitems, hrest, hnf1, hnf2, hpr⟩ :=
            (ih rest hrl).2 [] items hp
          have hl2 : rest2.length ≤ N := by
            rw [hrest] at hrl
            simp at hrl
            omega
          obtain ⟨hflat, hlits, hnames⟩ := (ih rest2 hl2).1 ritems hpr
          refine ⟨?_, ?_, ?_⟩
          · rw [hitems, flatItems, hflat, hc, hrest, List.nil_append]
          · intro c2 hc2
            rw [hitems] at hc2
            rcases List.mem_cons.mp hc2 with hEq | h2
            · exact absurd hEq (by simp)
            · exact hlits c2 h2
          · intro n hn
            rw [hitems] at hn
            rcases List.mem_cons.mp hn with hEq | h2
            · have hnf : n = [] ++ front := TItem.hole.inj hEq
              rw [List.nil_append] at hnf
              rw [hnf]
              exact ⟨hnf1, hnf2⟩
            · exact hnames n h2
        · by_cases hc2 : c = '}'
          · rw [if_neg hc, if_pos hc2] at hp
            exact absurd hp (by simp)
          · rw [if_neg hc, if_neg hc2] at hp
            cases hpt : parseTpl rest with
            | none => rw [hpt] at hp; exact absurd hp (by simp)
            | some ritems =>
              rw [hpt] at hp
              obtain rfl : TItem.lit c :: ritems = items := Option.some.inj hp
              obtain ⟨hflat, hlits, hnames⟩ := (ih rest hrl).1 ritems hpt
              refine ⟨?_, ?_, ?_⟩
              · rw [flatItems, hflat]
              · intro c2 hcm
                rcases List.mem_cons.mp hcm with hEq | h2
                · obtain rfl : c2 = c := TItem.lit.inj hEq
                  exact ⟨hc, hc2⟩
                · exact hlits c2 h2
              · intro n hn
                rcases List.mem_cons.mp hn with hEq | h2
                · exact absurd hEq (by simp)
                · exact hnames n h2
    · intro acc items hp
      cases t with
      | nil =>
        rw [parseHole] at hp
        exact absurd hp (by simp)
      | cons c rest =>
        have hrl : rest.length ≤ N := by
          simp at ht; omega
        rw [parseHole] at hp
        by_cases hc : c = '}'
        · rw [if_pos hc] at hp
          cases hpt : parseTpl rest with
          | none => rw [hpt] at hp; exact absurd hp (by simp)
          | some ritems =>
            rw [hpt] at hp
            obtain rfl : TItem.hole acc :: ritems = items := Option.some.inj hp
            refine ⟨[], ritems, rest, ?_, ?_, by simp, by simp, hpt⟩
            · rw [List.append_nil]
            · rw [List.nil_append, hc]
        · by_cases hc2 : c = '{'
          · rw [if_neg hc, if_pos hc2] at hp
            exact absurd hp (by simp)
          · rw [if_neg hc, if_neg hc2] at hp
            obtain ⟨front, ritems, rest2, hitems, hrest, hnf1, hnf2, hpr⟩ :=
              (ih rest hrl).2 (acc ++ [c]) items hp
            refine ⟨c :: front, ritems, rest2, ?_, ?_, ?_, ?_, hpr⟩
            · rw [hitems]
              simp
            · rw [hrest, List.cons_append]
            · intro hmem
              rcases List.mem_cons.mp hmem with hEq | h2
              · exact hc2 hEq.symm
              · exact hnf1 h2
            · intro hmem
              rcases List.mem_cons.mp hmem with hEq | h2
              · exact hc hEq.symm
              · exact hnf2 h2

/-- Scanning a brace-free name: `pyFormatHole` consumes up to the closing
brace and substitutes. -/
theorem pyFormatHole_name : ∀ n : Str, '}' ∉ n → '{' ∉ n →
    ∀ (acc : Str) (rest : Str) (vals : Vals),
    pyFormatHole (n ++ '}' :: rest) acc vals
      = (match lookupVal (acc ++ n) vals with
        | none => .error (.keyError (acc ++ n))
        | some v => (pyFormat rest vals).map (fun s => v ++ s)) := by
  intro n
  induction n with
  | nil =>
    intro _ _ acc rest vals
    rw [List.nil_append, pyFormatHole, if_pos rfl, List.append_nil]
  | cons c n2 ih =>
    intro h1 h2 acc rest vals
    have hc1 : c ≠ '}' := fun hEq => h1 (by simp [hEq])
    have hc2 : c ≠ '{' := fun hEq => h2 (by simp [hEq])
    have hn1 : '}' ∉ n2 := fun hm => h1 (by simp [hm])
    have hn2 : '{' ∉ n2 := fun hm => h2 (by simp [hm])
    rw [List.cons_append, pyFormatHole, if_neg hc1, if_neg hc2,
      ih hn1 hn2 (acc ++ [c]) rest vals]
    have hacc : acc ++ [c] ++ n2 = acc ++ c :: n2 := by simp
    rw [hacc]

/-- The faithful `pyFormat` agrees with item rendering on well-formed item
denotations. -/
theorem pyFormat_flat : ∀ items : List TItem,
    (∀ c, TItem.lit c ∈ items → c ≠ '{' ∧ c ≠ '}') →
    (∀ n, TItem.hole n ∈ items → '{' ∉ n ∧ '}' ∉ n) →
    ∀ vals, pyFormat (flatItems items) vals = renderItems items vals := by
  intro items
  induction items with
  | nil => intro _ _ vals; rfl
  | cons x rest ih =>
    intro hlits hnames vals
    have ihr := ih (fun c hc => hlits c (List.mem_cons_of_mem _ hc))
      (fun n hn => hnames n (List.mem_cons_of_mem _ hn)) vals
    cases x with
    | lit c =>
      obtain ⟨hc1, hc2⟩ := hlits c (List.mem_cons_self _ _)
      rw [flatItems, pyFormat, if_neg hc1, if_neg hc2, ihr]
      rfl
    | hole n =>
      obtain ⟨hn1, hn2⟩ := hnames n (List.mem_cons_self _ _)
      rw [flatItems, pyFormat, if_pos rfl,
        pyFormatHole_name n hn2 hn1 [] (flatItems rest) vals,
        List.nil_append, ihr]
      rfl

/-- A name followed by its closing brace determines itself as a prefix. -/
theorem name_prefix_eq : ∀ k n : Str, '}' ∉ k → '}' ∉ n →
    ∀ w : Str, k ++ ['}'] <+: n ++ '}' :: w → k = n := by
  intro k
  induction k with
  | nil =>
    intro n _ hn w hpre
    cases n with
    | nil => rfl
    | cons c n2 =>
      rw [List.nil_append, List.cons_append] at hpre
      obtain ⟨hEq, _⟩ := List.cons_prefix_cons.mp hpre
      exact absurd hEq.symm (fun hc => hn (by simp [hc]))
  | cons a k2 ih =>
    intro n hk hn w hpre
    cases n with
    | nil =>
      rw [List.cons_append, List.nil_append] at hpre
      obtain ⟨hEq, _⟩ := List.cons_prefix_cons.mp hpre
      exact absurd hEq (fun hc => hk (by simp [hc]))
    | cons b n2 =>
      rw [List.cons_append, List.cons_append] at hpre
      obtain ⟨hEq, hrest⟩ := List.cons_prefix_cons.mp hpre
      have hk2 : '}' ∉ k2 := fun hm => hk (by simp [hm])
      have hn2 : '}' ∉ n2 := fun hm => hn (by simp [hm])
      rw [hEq, ih n2 hk2 hn2 w hrest]

/-- An occurrence of a pattern starting with `\x7b` cannot start inside a
run that avoids `\x7b`. -/
theorem infix_drop_pre : ∀ (pre : Str), (∀ c ∈ pre, c ≠ '{') →
    ∀ (suf rest : Str), ('{' :: rest) <:+: pre ++ suf →
    ('{' :: rest) <:+: suf := by
  intro pre
  induction pre with
  | nil => intro _ suf rest h; exact h
  | cons c pre2 ih =>
    intro hno suf rest h
    rw [List.cons_append] at h
    rcases List.infix_cons_iff.mp h with hpre | hinf
    · obtain ⟨hEq, _⟩ := List.cons_prefix_cons.mp hpre
      exact absurd hEq.symm (hno c (List.mem_cons_self _ _))
    · exact ih (fun c2 hc2 => hno c2 (List.mem_cons_of_mem _ hc2))
        suf rest hinf

/-- A placeholder occurring among the items occurs in the denoted string. -/
theorem infix_of_hole : ∀ (items : List TItem) (k : Str),
    TItem.hole k ∈ items → placeholderOf k <:+: flatItems items := by
  intro items k hmem
  obtain ⟨l, r, rfl⟩ := List.append_of_mem hmem
  rw [flatItems_append, flatItems]
  refine ⟨flatItems l, flatItems r, ?_⟩
  rw [placeholderOf]
  simp

/-- A placeholder occurring in the denoted string of well-formed items is
one of their holes. -/
theorem hole_of_occurrence : ∀ (items : List TItem) (k : Str),
    (∀ c, TItem.lit c ∈ items → c ≠ '{') →
    (∀ n, TItem.hole n ∈ items → '{' ∉ n ∧ '}' ∉ n) →
    '}' ∉ k →
    placeholderOf k <:+: flatItems items → TItem.hole k ∈ items := by
  intro items
  induction items with
  | nil =>
    intro k _ _ _ hinf
    rw [flatItems] at hinf
    exact absurd (List.infix_nil.mp hinf) (by rw [placeholderOf]; simp)
  | cons x rest ih =>
    intro k hlits hnames hk hinf
    have ihr := ih k (fun c hc => hlits c (List.mem_cons_of_mem _ hc))
      (fun n hn => hnames n (List.mem_cons_of_mem _ hn)) hk
    cases x with
    | lit c =>
      rw [flatItems] at hinf
      rcases List.infix_cons_iff.mp hinf with hpre | hinf2
      · rw [placeholderOf] at hpre
        obtain ⟨hEq, _⟩ := List.cons_prefix_cons.mp hpre
        exact absurd hEq.symm (hlits c (List.mem_cons_self _ _))
      · exact List.mem_cons_of_mem _ (ihr hinf2)
    | hole n =>
      obtain ⟨hn1, hn2⟩ := hnames n (List.mem_cons_self _ _)
      rw [flatItems] at hinf
      rcases List.infix_cons_iff.mp hinf with hpre | hinf2
      · rw [placeholderOf] at hpre
        obtain ⟨_, hrest⟩ := List.cons_prefix_cons.mp hpre
        have : k = n := name_prefix_eq k n hk hn2 (flatItems rest) hrest
        rw [this]
        exact List.mem_cons_self _ _
      · have hsplit : n ++ '}' :: flatItems rest
            = (n ++ ['}']) ++ flatItems rest := by simp
        rw [hsplit] at hinf2
        rw [placeholderOf] at hinf2
        have hnopre : ∀ c ∈ n ++ ['}'], c ≠ '{' := by
          intro c hc
          rcases List.mem_append.mp hc with h | h
          · exact fun hEq => hn1 (hEq ▸ h)
          · rcases List.mem_singleton.mp h with rfl
            decide
        have := infix_drop_pre (n ++ ['}']) hnopre (flatItems rest)
          (k ++ ['}']) hinf2
        exact List.mem_cons_of_mem _ (ihr (by rw [placeholderOf]; exact this))

/-- Hole names list membership. -/
theorem mem_holeNames : ∀ (items : List TItem) (n : Str),
    n ∈ holeNames items ↔ TItem.hole n ∈ items := by
  intro items n
  induction items with
  | nil => simp [holeNames]
  | cons x rest ih =>
    cases x with
    | lit c =>
      rw [holeNames]
      simp only [ih, List.mem_cons]
      constructor
      · intro h; exact Or.inr h
      · intro h
        rcases h with hEq | h2
        · exact absurd hEq (by simp)
        · exact h2
    | hole m =>
      rw [holeNames]
      simp only [List.mem_cons, ih]
      constructor
      · intro h
        rcases h with rfl | h2
        · exact Or.inl rfl
        · exact Or.inr h2
      · intro h
        rcases h with hEq | h2
        · exact Or.inl (TItem.hole.inj hEq.symm).symm
        · exact Or.inr h2

/-- Rendering succeeds with the total substitution when no name is
missing. -/
theorem renderItems_ok_of : ∀ (items : List TItem) (vals : Vals),
    (∀ n, n ∈ holeNames items → (lookupVal n vals).isSome) →
    renderItems items vals = .ok (substItems items vals) := by
  intro items vals
  induction items with
  | nil => intro _; rfl
  | cons x rest ih =>
    intro hall
    cases x with
    | lit c =>
      rw [renderItems, ih (fun n hn => hall n (by rw [holeNames]; exact hn))]
      rfl
    | hole m =>
      have hm := hall m (by rw [holeNames]; exact List.mem_cons_self _ _)
      obtain ⟨v, hv⟩ := Option.isSome_iff_exists.mp hm
      rw [renderItems, hv,
        ih (fun n hn => hall n (by rw [holeNames]; exact List.mem_cons_of_mem _ hn))]
      rw [substItems, hv]
      rfl

/-- Rendering succeeds only when no name is missing. -/
theorem renderItems_ok_no_missing : ∀ (items : List TItem) (vals : Vals) (s : Str),
    renderItems items vals = .ok s →
    ∀ n, n ∈ holeNames items → (lookupVal n vals).isSome := by
  intro items vals
  induction items with
  | nil => intro s _ n hn; exact absurd hn (by simp [holeNames])
  | cons x rest ih =>
    intro s hok n hn
    cases x with
    | lit c =>
      rw [renderItems] at hok
      cases hr : renderItems rest vals with
      | error e => rw [hr] at hok; exact absurd hok (by simp [Except.map])
      | ok s2 =>
        rw [holeNames] at hn
        exact ih s2 hr n hn
    | hole m =>
      rw [renderItems] at hok
      cases hl : lookupVal m vals with
      | none => rw [hl] at hok; exact absurd hok (by simp)
      | some v =>
        rw [hl] at hok
        rw [holeNames] at hn
        rcases List.mem_cons.mp hn with rfl | hn2
        · rw [hl]; rfl
        · cases hr : renderItems rest vals with
          | error e => rw [hr] at hok; exact absurd hok (by simp [Except.map])
          | ok s2 => exact ih s2 hr n hn2

/-- A rendering `KeyError` names a hole of the items whose name is
missing. -/
theorem renderItems_error_key : ∀ (items : List TItem) (vals : Vals) (k : Str),
    renderItems items vals = .error (.keyError k) →
    TItem.hole k ∈ items ∧ lookupVal k vals = none := by
  intro items vals
  induction items with
  | nil => intro k h; exact absurd h (by simp [renderItems])
  | cons x rest ih =>
    intro k h
    cases x with
    | lit c =>
      rw [renderItems] at h
      cases hr : renderItems rest vals with
      | ok s => rw [hr] at h; exact absurd h (by simp [Except.map])
      | error e =>
        rw [hr] at h
        have he : e = .keyError k := by
          cases e <;> simp_all [Except.map]
        obtain ⟨h1, h2⟩ := ih k (by rw [hr, he])
        exact ⟨List.mem_cons_of_mem _ h1, h2⟩
    | hole m =>
      rw [renderItems] at h
      cases hl : lookupVal m vals with
      | none =>
        rw [hl] at h
        have hmk : m = k := by simp_all
        subst hmk
        exact ⟨List.mem_cons_self _ _, hl⟩
      | some v =>
        rw [hl] at h
        cases hr : renderItems rest vals with
        | ok s => rw [hr] at h; exact absurd h (by simp [Except.map])
        | error e =>
          rw [hr] at h
          have he : e = .keyError k := by
            cases e <;> simp_all [Except.map]
          obtain ⟨h1, h2⟩ := ih k (by rw [hr, he])
          exact ⟨List.mem_cons_of_mem _ h1, h2⟩

/-- Rendering never raises the stray-brace `ValueError`. -/
theorem renderItems_no_valueError : ∀ (items : List TItem) (vals : Vals),
    renderItems items vals ≠ .error .valueError := by
  intro items vals
  induction items with
  | nil => simp [renderItems]
  | cons x rest ih =>
    cases x with
    | lit c =>
      rw [renderItems]
      cases hr : renderItems rest vals with
      | ok s => simp [Except.map]
      | error e =>
        rw [hr] at ih
        intro h
        have : e = FmtErr.valueError := by
          cases e <;> simp_all [Except.map]
        exact ih (by rw [this])
    | hole m =>
      rw [renderItems]
      cases hl : lookupVal m vals with
      | none => simp
      | some v =>
        cases hr : renderItems rest vals with
        | ok s => simp [Except.map]
        | error e =>
          rw [hr] at ih
          intro h
          have : e = FmtErr.valueError := by
            cases e <;> simp_all [Except.map]
          exact ih (by rw [this])

/-- Filtering segments never lengthens the joined string. -/
theorem jlen_filter_le : ∀ (ss : List Str) (p : Str → Bool),
    (joinSlash (ss.filter p)).length ≤ (joinSlash ss).length := by
  intro ss p
  induction ss with
  | nil => simp
  | cons s rest ih =>
    rw [List.filter_cons]
    cases rest with
    | nil =>
      by_cases hp : p s
      · simp [hp, joinSlash]
      · simp [hp, joinSlash]
    | cons r rs =>
      rw [joinSlash_cons s (r :: rs) (by simp)]
      by_cases hp : p s
      · simp only [hp, if_true]
        cases hft : (r :: rs).filter p with
        | nil =>
          rw [joinSlash_singleton]
          simp
        | cons f fs =>
          rw [joinSlash_cons s (f :: fs) (by simp)]
          rw [hft] at ih
          simp only [List.length_append, List.length_cons]
          omega
      · simp only [hp, if_false]
        calc (joinSlash ((r :: rs).filter p)).length
            ≤ (joinSlash (r :: rs)).length := ih
          _ ≤ (s ++ '/' :: joinSlash (r :: rs)).length := by
              simp only [List.length_append, List.length_cons]
              omega

/-- Dropping a non-empty segment strictly shortens the joined string. -/
theorem jlen_filter_lt : ∀ (ss : List Str) (p : Str → Bool),
    (∃ s ∈ ss, p s = false ∧ s ≠ []) →
    (joinSlash (ss.filter p)).length < (joinSlash ss).length := by
  intro ss p
  induction ss with
  | nil => intro h; exact absurd h (by simp)
  | cons s rest ih =>
    intro hw
    rw [List.filter_cons]
    by_cases hp : p s
    · simp only [hp, if_true]
      have hwrest : ∃ x ∈ rest, p x = false ∧ x ≠ [] := by
        obtain ⟨x, hx, hpx, hxe⟩ := hw
        rcases List.mem_cons.mp hx with rfl | h2
        · rw [hp] at hpx; exact absurd hpx (by simp)
        · exact ⟨x, h2, hpx, hxe⟩
      cases rest with
      | nil =>
        obtain ⟨x, hx, _⟩ := hwrest
        exact absurd hx (by simp)
      | cons r rs =>
        have ihlt := ih hwrest
        rw [joinSlash_cons s (r :: rs) (by simp)]
        cases hft : (r :: rs).filter p with
        | nil =>
          rw [joinSlash_singleton]
          rw [hft] at ihlt
          simp only [joinSlash] at ihlt
          simp only [List.length_append, List.length_cons]
          omega
        | cons f fs =>
          rw [joinSlash_cons s (f :: fs) (by simp)]
          rw [hft] at ihlt
          simp only [List.length_append, List.length_cons]
          omega
    · simp only [hp, if_false]
      cases rest with
      | nil =>
        obtain ⟨x, hx, hpx, hxe⟩ := hw
        rcases List.mem_cons.mp hx with rfl | h2
        · simp only [List.filter_nil, joinSlash, joinSlash_singleton]
          simp only [List.length_nil]
          exact List.length_pos.mpr hxe
        · exact absurd h2 (by simp)
      | cons r rs =>
        calc (joinSlash ((r :: rs).filter p)).length
            ≤ (joinSlash (r :: rs)).length := jlen_filter_le (r :: rs) p
          _ < (joinSlash (s :: r :: rs)).length := by
              rw [joinSlash_cons s (r :: rs) (by simp)]
              simp only [List.length_append, List.length_cons]
              omega

/-- A filter that drops some member is strictly shorter. -/
theorem length_filter_lt {α : Type} : ∀ (l : List α) (p : α → Bool),
    (∃ x ∈ l, p x = false) → (l.filter p).length < l.length := by
  intro l p
  induction l with
  | nil => intro h; exact absurd h (by simp)
  | cons x rest ih =>
    intro hw
    rw [List.filter_cons]
    by_cases hp : p x
    · simp only [hp, if_true]
      have hwrest : ∃ y ∈ rest, p y = false := by
        obtain ⟨y, hy, hpy⟩ := hw
        rcases List.mem_cons.mp hy with rfl | h2
        · rw [hp] at hpy; exact absurd hpy (by simp)
        · exact ⟨y, h2, hpy⟩
      simp only [List.length_cons]
      exact Nat.succ_lt_succ (ih hwrest)
    · simp only [hp, if_false, List.length_cons]
      exact Nat.lt_succ_of_le (List.length_filter_le p rest)

/-- Membership in a group gives membership in the joined items. -/
theorem mem_joinItems_of_mem : ∀ (gs : List (List TItem)) (g : List TItem)
    (x : TItem), g ∈ gs → x ∈ g → x ∈ joinItems gs := by
  intro gs
  induction gs with
  | nil => intro g x hg _; exact absurd hg (by simp)
  | cons g0 gs2 ih =>
    intro g x hg hx
    cases gs2 with
    | nil =>
      rcases List.mem_cons.mp hg with rfl | h2
      · rw [joinItems_singleton]; exact hx
      · exact absurd h2 (by simp)
    | cons g2 gs3 =>
      rw [joinItems_cons g0 (g2 :: gs3) (by simp)]
      rcases List.mem_cons.mp hg with rfl | h2
      · exact List.mem_append.mpr (Or.inl hx)
      · exact List.mem_append.mpr
          (Or.inr (List.mem_cons_of_mem _ (ih g x h2 hx)))

/-- The retry loop of `_format_url_section`, run on the string of joined
well-formed segment groups with sufficient fuel: it returns the substitution
into exactly the groups free of missing placeholders (provided at least one
such group exists). -/
theorem formatUrlLoop_spec : ∀ N : Nat, ∀ gs : List (List TItem),
    gs.length ≤ N → gs ≠ [] →
    (∀ g ∈ gs, ∀ c, TItem.lit c ∈ g → c ≠ '{' ∧ c ≠ '}' ∧ c ≠ '/') →
    (∀ g ∈ gs, ∀ n, TItem.hole n ∈ g → '{' ∉ n ∧ '}' ∉ n ∧ '/' ∉ n) →
    ∀ (vals : Vals) (fuel : Nat), gs.length < fuel →
    gs.filter (fun g => ! hasMissingB vals g) ≠ [] →
    formatUrlLoop fuel (flatItems (joinItems gs)) (flatItems (joinItems gs))
        (gs.map flatItems) vals
      = .ok (substItems
          (joinItems (gs.filter (fun g => ! hasMissingB vals g))) vals) := by
  intro N
  induction N with
  | zero =>
    intro gs hlen hne
    cases gs with
    | nil => exact absurd rfl hne
    | cons g gs2 => exact absurd hlen (by simp)
  | succ N ih =>
    intro gs hlen hne hlits hnames vals fuel hfuel hgood
    cases fuel with
    | zero => exact absurd hfuel (by omega)
    | succ f =>
      have hcomp : gs.map flatItems ≠ [] := by
        cases gs with
        | nil => exact absurd rfl hne
        | cons g gs2 => simp
      have hjlits : ∀ c, TItem.lit c ∈ joinItems gs → c ≠ '{' ∧ c ≠ '}' := by
        intro c hc
        rcases mem_joinItems gs _ hc with ⟨g, hg, hcg⟩ | hEq
        · exact ⟨(hlits g hg c hcg).1, (hlits g hg c hcg).2.1⟩
        · obtain rfl : c = '/' := TItem.lit.inj hEq
          exact ⟨by decide, by decide⟩
      have hjnames : ∀ n, TItem.hole n ∈ joinItems gs → '{' ∉ n ∧ '}' ∉ n := by
        intro n hn
        rcases mem_joinItems gs _ hn with ⟨g, hg, hng⟩ | hEq
        · exact ⟨(hnames g hg n hng).1, (hnames g hg n hng).2.1⟩
        · exact absurd hEq (by simp)
      rw [formatUrlLoop, if_neg hcomp,
        pyFormat_flat (joinItems gs) hjlits hjnames vals]
      cases hrender : renderItems (joinItems gs) vals with
      | ok s =>
        simp only []
        have hnomiss : ∀ n ∈ holeNames (joinItems gs),
            (lookupVal n vals).isSome :=
          renderItems_ok_no_missing _ _ s hrender
        have hfiltall : gs.filter (fun g => ! hasMissingB vals g) = gs := by
          rw [List.filter_eq_self]
          intro g hg
          rw [Bool.not_eq_eq_eq_not, Bool.not_true]
          rw [hasMissingB]
          rw [← Bool.not_eq_true]
          intro hany
          obtain ⟨n, hn, hnone⟩ := List.any_eq_true.mp hany
          have hs := hnomiss n ((mem_holeNames _ n).mpr
            (mem_joinItems_of_mem gs g _ hg ((mem_holeNames g n).mp hn)))
          rw [Option.isNone_iff_eq_none.mp hnone] at hs
          exact absurd hs (by simp)
        rw [hfiltall]
        have hok := renderItems_ok_of (joinItems gs) vals hnomiss
        rw [hrender] at hok
        rw [Except.ok.inj hok]
      | error e =>
        cases e with
        | valueError => exact absurd hrender (renderItems_no_valueError _ _)
        | keyError k =>
          simp only []
          obtain ⟨hkmem, hkmiss⟩ := renderItems_error_key _ _ k hrender
          obtain ⟨gk, hgk, hkg⟩ : ∃ g ∈ gs, TItem.hole k ∈ g := by
            rcases mem_joinItems gs _ hkmem with h | hEq
            · exact h
            · exact absurd hEq (by simp)
          obtain ⟨hk1, hk2, hk3⟩ := hnames gk hgk k hkg
          have hnoslash : ∀ g ∈ gs, '/' ∉ flatItems g := fun g hg =>
            flat_noslash g (fun c hc => (hlits g hg c hc).2.2)
              (fun n hn => (hnames g hg n hn).2.2)
          have hsplit : splitSlash (flatItems (joinItems gs))
              = gs.map flatItems := splitSlash_flat_join gs hne hnoslash
          have hinfOcc : ∀ g ∈ gs,
              isInfixB (placeholderOf k) (flatItems g)
                = decide (TItem.hole k ∈ g) := by
            intro g hg
            by_cases hmem : TItem.hole k ∈ g
            · rw [decide_eq_true hmem]
              exact (isInfixB_iff _ _).mpr (infix_of_hole g k hmem)
            · rw [decide_eq_false hmem]
              rw [← Bool.not_eq_true]
              intro htrue
              exact hmem (hole_of_occurrence g k
                (fun c hc => (hlits g hg c hc).1)
                (fun n hn => ⟨(hnames g hg n hn).1, (hnames g hg n hn).2.1⟩)
                hk2 ((isInfixB_iff _ _).mp htrue))
          have hfiltmap : (gs.map flatItems).filter
                (fun c => ! isInfixB (placeholderOf k) c)
              = (gs.filter (fun g => ! (decide (TItem.hole k ∈ g)))).map
                  flatItems := by
            rw [List.filter_map]
            congr 1
            apply List.filter_congr
            intro g hg
            show (! isInfixB (placeholderOf k) (flatItems g))
              = (! decide (TItem.hole k ∈ g))
            rw [hinfOcc g hg]
          have hflatgk : flatItems gk ≠ [] := by
            intro hnil
            have := infix_of_hole gk k hkg
            rw [hnil] at this
            exact absurd (List.infix_nil.mp this) (by rw [placeholderOf]; simp)
          have hlt : (joinSlash ((gs.map flatItems).filter
                (fun c => ! isInfixB (placeholderOf k) c))).length
              < (joinSlash (gs.map flatItems)).length := by
            apply jlen_filter_lt
            refine ⟨flatItems gk, List.mem_map.mpr ⟨gk, hgk, rfl⟩, ?_, hflatgk⟩
            rw [hinfOcc gk hgk, decide_eq_true hkg]
            rfl
          rw [joinSlash_map_flat gs] at hlt
          have hneq : joinSlash ((gs.map flatItems).filter
                (fun c => ! isInfixB (placeholderOf k) c))
              ≠ flatItems (joinItems gs) := by
            intro hEq
            rw [hEq] at hlt
            exact lt_irrefl _ hlt
          rw [hsplit]
          rw [if_neg hneq]
          have hsubfilt : (gs.filter (fun g => ! (decide (TItem.hole k ∈ g)))).filter
                (fun g => ! hasMissingB vals g)
              = gs.filter (fun g => ! hasMissingB vals g) := by
            rw [List.filter_filter]
            apply List.filter_congr
            intro g hg
            by_cases hgm : hasMissingB vals g = true
            · simp [hgm]
            · have hknotg : TItem.hole k ∉ g := by
                intro hmem
                apply hgm
                rw [hasMissingB]
                refine List.any_eq_true.mpr ⟨k, (mem_holeNames g k).mpr hmem, ?_⟩
                rw [hkmiss]
                rfl
              simp [hgm, hknotg]
          have hgood2 : (gs.filter (fun g => ! (decide (TItem.hole k ∈ g)))).filter
                (fun g => ! hasMissingB vals g) ≠ [] := by
            rw [hsubfilt]; exact hgood
          have hne2 : gs.filter (fun g => ! (decide (TItem.hole k ∈ g))) ≠ [] := by
            intro h
            rw [h] at hgood2
            exact hgood2 rfl
          have hlen2 : (gs.filter (fun g => ! (decide (TItem.hole k ∈ g)))).length
              < gs.length :=
            length_filter_lt gs _ ⟨gk, hgk, by rw [decide_eq_true hkg]; rfl⟩
          have hrec := ih (gs.filter (fun g => ! (decide (TItem.hole k ∈ g))))
            (by omega) hne2
            (fun g hg => hlits g (List.mem_of_mem_filter hg))
            (fun g hg => hnames g (List.mem_of_mem_filter hg))
            vals f (by omega) hgood2
          rw [hsubfilt] at hrec
          rw [hfiltmap, joinSlash_map_flat]
          exact hrec

/-- C3 is refuted as stated: for the template `\x7bx\x7d` (one segment,
wholly a missing placeholder) and the empty value mapping, removing the
offending segment removes every component, and `_format_url_section` falls
off the end of its loop returning Python `None` — neither the string with
the segment removed (the empty string) nor an `InvalidURL` error. -/
theorem claim_C3_counterexample :
    formatUrlSection ("\x7bx\x7d".toList) [] = .noneResult ∧
    UrlFmtResult.noneResult ≠ .ok [] ∧
    UrlFmtResult.noneResult ≠ .invalidUrl := by
  exact ⟨by decide, by decide, by decide⟩

/-- C3 (amended): over the modelled template fragment (parseable simple
placeholders with nonempty, slash-free names): (i) when every placeholder
name has a value, formatting returns the direct substitution; (ii) when some
are missing, it returns exactly the `/`-delimited segments free of missing
placeholders, rejoined and substituted — provided at least one such segment
survives (if every segment is removed the function returns `None`, see the
counterexample); (iii) whenever a removal pass changes nothing (the `format`
`KeyError` names a key whose `\x7bkey\x7d` occurs in no component),
formatting fails with the `InvalidURL` `ValueError` instead of looping or
returning. -/
theorem claim_C3_theorem :
    (∀ (T : Str) (vals : Vals) (items : List TItem),
      parseTpl T = some items →
      (∀ n, TItem.hole n ∈ items → n ≠ [] ∧ '/' ∉ n) →
      ((∀ n, n ∈ holeNames items → (lookupVal n vals).isSome) →
        formatUrlSection T vals = .ok (substItems items vals)) ∧
      ((splitItems items).filter (fun g => ! hasMissingB vals g) ≠ [] →
        formatUrlSection T vals
          = .ok (substItems
              (joinItems ((splitItems items).filter
                (fun g => ! hasMissingB vals g))) vals))) ∧
    (∀ (T : Str) (vals : Vals) (k : Str),
      pyFormat T vals = .error (.keyError k) →
      (splitSlash T).filter (fun c => ! isInfixB (placeholderOf k) c)
        = splitSlash T →
      formatUrlSection T vals = .invalidUrl) := by
  constructor
  · intro T vals items hparse hnames0
    obtain ⟨hflat, hlits, hbraces⟩ :=
      (parse_sound T.length T le_rfl).1 items hparse
    have glits : ∀ g ∈ splitItems items, ∀ c, TItem.lit c ∈ g →
        c ≠ '{' ∧ c ≠ '}' ∧ c ≠ '/' := by
      intro g hg c hc
      refine ⟨(hlits c (mem_splitItems items g _ hg hc)).1,
        (hlits c (mem_splitItems items g _ hg hc)).2, ?_⟩
      intro hEq
      exact splitItems_no_slash items g hg (hEq ▸ hc)
    have gnames : ∀ g ∈ splitItems items, ∀ n, TItem.hole n ∈ g →
        '{' ∉ n ∧ '}' ∉ n ∧ '/' ∉ n := by
      intro g hg n hn
      have hmem := mem_splitItems items g _ hg hn
      exact ⟨(hbraces n hmem).1, (hbraces n hmem).2,
        (hnames0 n hmem).2⟩
    have hnoslash : ∀ g ∈ splitItems items, '/' ∉ flatItems g := fun g hg =>
      flat_noslash g (fun c hc => (glits g hg c hc).2.2)
        (fun n hn => (gnames g hg n hn).2.2)
    have hT : T = flatItems (joinItems (splitItems items)) := by
      rw [joinItems_splitItems]
      exact hflat.symm
    have hsection : ∀ hgoodne : (splitItems items).filter
          (fun g => ! hasMissingB vals g) ≠ [],
        formatUrlSection T vals
          = .ok (substItems
              (joinItems ((splitItems items).filter
                (fun g => ! hasMissingB vals g))) vals) := by
      intro hgoodne
      rw [formatUrlSection, hT,
        splitSlash_flat_join _ (splitItems_ne_nil items) hnoslash,
        List.length_map]
      exact formatUrlLoop_spec (splitItems items).length (splitItems items)
        le_rfl (splitItems_ne_nil items) glits gnames vals
        ((splitItems items).length + 1) (by omega) hgoodne
    constructor
    · intro hall
      have hnomiss : ∀ g ∈ splitItems items, (! hasMissingB vals g) = true := by
        intro g hg
        rw [Bool.not_eq_eq_eq_not, Bool.not_true, hasMissingB,
          ← Bool.not_eq_true]
        intro hany
        obtain ⟨n, hn, hnone⟩ := List.any_eq_true.mp hany
        have hs := hall n ((mem_holeNames items n).mpr
          (mem_splitItems items g _ hg ((mem_holeNames g n).mp hn)))
        rw [Option.isNone_iff_eq_none.mp hnone] at hs
        exact absurd hs (by simp)
      have hfiltall : (splitItems items).filter
          (fun g => ! hasMissingB vals g) = splitItems items :=
        List.filter_eq_self.mpr hnomiss
      have := hsection (by rw [hfiltall]; exact splitItems_ne_nil items)
      rw [hfiltall, joinItems_splitItems] at this
      exact this
    · exact hsection
  · intro T vals k hkey hnochange
    rw [formatUrlSection, formatUrlLoop, if_neg (splitSlash_ne_nil T), hkey]
    simp only []
    rw [hnochange, joinSlash_splitSlash, if_pos rfl]

/-- C3 witness: the theorem applied to the concrete template `/a/\x7bx\x7d/b`
with the empty value mapping (the placeholder segment is removed, `/a/b`
remains), and clause (iii) applied to `/a/\x7bx/y\x7d` whose placeholder name
spans a slash so that no component removal is possible. -/
theorem claim_C3_witness :
    formatUrlSection ("/a/\x7bx\x7d/b".toList) [] = .ok ("/a/b".toList) ∧
    formatUrlSection ("/a/\x7bx/y\x7d".toList) [] = .invalidUrl := by
  have hnames : ∀ n, TItem.hole n ∈
      [TItem.lit '/', TItem.lit 'a', TItem.lit '/', TItem.hole ['x'],
       TItem.lit '/', TItem.lit 'b'] → n ≠ [] ∧ '/' ∉ n := by
    intro n hn
    simp only [List.mem_cons] at hn
    rcases hn with h | h | h | h | h | h | h
    · exact absurd h (by simp)
    · exact absurd h (by simp)
    · exact absurd h (by simp)
    · rw [TItem.hole.inj h]
      exact ⟨by decide, by decide⟩
    · exact absurd h (by simp)
    · exact absurd h (by simp)
    · exact absurd h (by simp)
  constructor
  · have h := (claim_C3_theorem.1 ("/a/\x7bx\x7d/b".toList) []
      [.lit '/', .lit 'a', .lit '/', .hole ['x'], .lit '/', .lit 'b']
      (by decide) hnames).2 (by decide)
    rw [h]
    decide
  · exact claim_C3_theorem.2 ("/a/\x7bx/y\x7d".toList) [] ("x/y".toList)
      rfl (by decide)
